import Mathlib

/-!
# Verification of `add_mesh_space_tree` (voxel forest generator)

A shallow embedding of `src/voxel_grid.py` together with proofs about the two
core algorithms: pairwise collision resolution between tree voxel grids
(`resolve_collision` and its helpers) and the greedy meshing compression
(`capture_rows` / `capture_planes` / `capture_quads`).

Conventions of the embedding:
* a numpy `int8` 3-D array becomes a `Grid`: an explicit shape together with a
  total function `Pos → ℕ` giving the stored cell value; all set-like
  operations (`argwhere`, fancy indexing, boolean masks) become lists of
  positions, enumerated in the lexicographic order numpy uses;
* `random.randint` / `random.choice` draws are passed in as explicit
  parameters, so theorems quantify over every possible random choice;
* the two `distance_transform_edt` result arrays of
  `assign_rest_of_collision_cells` are abstracted as parameters
  `d1 d2 : Pos → ℚ`: the boolean mask fed to the transform is constant true
  (theorem `non_owned_mask_always_true` below), so the arrays do not depend on
  the cell contents, and every theorem quantifies over arbitrary distance
  arrays, covering the library's actual output;
* Python `float` dimension parameters become `ℚ` and `int(...)` becomes
  truncation toward zero (`pyint`); every concrete configuration used in a
  theorem keeps all intermediate values exactly representable.
-/

namespace SpaceTree

/-- Cell position: numpy index triple `(x, y, z)`, as integers because
translations may leave the index range. -/
abbrev Pos : Type := ℤ × ℤ × ℤ

/-- The `CellType` enum of `voxel_grid.py`. -/
inductive CellType : Type
  | no_tree
  | stem
  | crown
  | collision
deriving DecidableEq

/-- The numeric `.value` of each enum member (the grids store `int8` values). -/
def CellType.value : CellType → ℕ
  | .no_tree => 0
  | .stem => 1
  | .crown => 2
  | .collision => 3

/-- A tree's voxel grid: the allocated shape and the stored value at each
index triple.  Out-of-shape positions are irrelevant to every observable
operation (all of which enumerate or clip to the shape). -/
structure Grid : Type where
  shape : ℕ × ℕ × ℕ
  data : Pos → ℕ

/-- `p` is a valid index triple for shape `s` (each axis in `[0, dim)`). -/
def inBounds (s : ℕ × ℕ × ℕ) (p : Pos) : Prop :=
  0 ≤ p.1 ∧ p.1 < (s.1 : ℤ) ∧ 0 ≤ p.2.1 ∧ p.2.1 < (s.2.1 : ℤ) ∧
    0 ≤ p.2.2 ∧ p.2.2 < (s.2.2 : ℤ)

instance (s : ℕ × ℕ × ℕ) (p : Pos) : Decidable (inBounds s p) := by
  unfold inBounds; infer_instance

/-- All valid index triples of shape `s`, in numpy's lexicographic order. -/
def allPositions (s : ℕ × ℕ × ℕ) : List Pos :=
  ((List.range s.1).product ((List.range s.2.1).product (List.range s.2.2))).map
    fun t => ((t.1 : ℤ), (t.2.1 : ℤ), (t.2.2 : ℤ))

theorem mem_allPositions {s : ℕ × ℕ × ℕ} {p : Pos} :
    p ∈ allPositions s ↔ inBounds s p := by
  obtain ⟨a, b, c⟩ := p
  unfold inBounds
  simp only [allPositions, List.mem_map]
  constructor
  · rintro ⟨⟨x, y, z⟩, ht, h⟩
    rw [List.pair_mem_product] at ht
    obtain ⟨hx, ht⟩ := ht
    rw [List.pair_mem_product] at ht
    obtain ⟨hy, hz⟩ := ht
    simp only [List.mem_range] at hx hy hz
    obtain ⟨h1, h2, h3⟩ : (x : ℤ) = a ∧ (y : ℤ) = b ∧ (z : ℤ) = c := by
      simpa [Prod.ext_iff] using h
    refine ⟨?_, ?_, ?_, ?_, ?_, ?_⟩ <;> omega
  · rintro ⟨ha0, ha, hb0, hb, hc0, hc⟩
    refine ⟨(a.toNat, b.toNat, c.toNat), ?_, ?_⟩
    · rw [List.pair_mem_product]
      refine ⟨by simp only [List.mem_range]; omega, ?_⟩
      rw [List.pair_mem_product]
      exact ⟨by simp only [List.mem_range]; omega, by simp only [List.mem_range]; omega⟩
    · show ((a.toNat : ℤ), ((b.toNat : ℤ), (c.toNat : ℤ))) = (a, b, c)
      rw [Int.toNat_of_nonneg ha0, Int.toNat_of_nonneg hb0, Int.toNat_of_nonneg hc0]

theorem allPositions_nodup (s : ℕ × ℕ × ℕ) : (allPositions s).Nodup := by
  refine List.Nodup.map ?_
    ((List.nodup_range _).product ((List.nodup_range _).product (List.nodup_range _)))
  rintro ⟨x₁, y₁, z₁⟩ ⟨x₂, y₂, z₂⟩ h
  simp only [Prod.ext_iff] at h ⊢
  exact_mod_cast h

/-- `np.argwhere(tree_grid == v)`: all index triples holding value `v`,
in lexicographic order. -/
def argwhere (g : Grid) (v : ℕ) : List Pos :=
  (allPositions g.shape).filter fun p => decide (g.data p = v)

theorem mem_argwhere {g : Grid} {v : ℕ} {p : Pos} :
    p ∈ argwhere g v ↔ inBounds g.shape p ∧ g.data p = v := by
  simp [argwhere, List.mem_filter, mem_allPositions]

theorem argwhere_nodup (g : Grid) (v : ℕ) : (argwhere g v).Nodup :=
  (allPositions_nodup _).filter _

/-- `VoxelGrid.trim_mask`: keep only the index triples within the grid's
bounds ("to prevent out of bound errors"). -/
def trim_mask (g : Grid) (mask : List Pos) : List Pos :=
  mask.filter fun p => decide (inBounds g.shape p)

theorem mem_trim_mask {g : Grid} {l : List Pos} {p : Pos} :
    p ∈ trim_mask g l ↔ p ∈ l ∧ inBounds g.shape p := by
  simp [trim_mask, List.mem_filter]

/-- Fancy-index assignment `grid[cells] = v` (numpy writes the value at every
listed index; duplicate indices all receive the same value). -/
def writeCells (g : Grid) (cells : List Pos) (v : ℕ) : Grid :=
  { shape := g.shape, data := fun p => if p ∈ cells then v else g.data p }

@[simp] theorem writeCells_shape (g : Grid) (cells : List Pos) (v : ℕ) :
    (writeCells g cells v).shape = g.shape := rfl

theorem writeCells_data_of_mem {g : Grid} {cells : List Pos} {v : ℕ} {p : Pos}
    (h : p ∈ cells) : (writeCells g cells v).data p = v := by
  simp [writeCells, h]

theorem writeCells_data_of_not_mem {g : Grid} {cells : List Pos} {v : ℕ} {p : Pos}
    (h : p ∉ cells) : (writeCells g cells v).data p = g.data p := by
  simp [writeCells, h]

/-- The valid index triples of shape `s` as a finite set. -/
def bnd (s : ℕ × ℕ × ℕ) : Finset Pos := (allPositions s).toFinset

theorem mem_bnd {s : ℕ × ℕ × ℕ} {p : Pos} : p ∈ bnd s ↔ inBounds s p := by
  simp [bnd, mem_allPositions]

/-- The in-bounds cells of `g` holding value `v`, as a finite set. -/
def cellsWith (g : Grid) (v : ℕ) : Finset Pos :=
  (bnd g.shape).filter fun p => g.data p = v

theorem mem_cellsWith {g : Grid} {v : ℕ} {p : Pos} :
    p ∈ cellsWith g v ↔ inBounds g.shape p ∧ g.data p = v := by
  simp [cellsWith, Finset.mem_filter, mem_bnd]

/-- Number of Crown cells of a grid. -/
def crownCount (g : Grid) : ℕ := (cellsWith g CellType.crown.value).card

/-- The grid holds no `CollisionMarker` cell. -/
def NoMarkers (g : Grid) : Prop :=
  ∀ p ∈ allPositions g.shape, g.data p ≠ CellType.collision.value

instance (g : Grid) : Decidable (NoMarkers g) := by
  unfold NoMarkers; infer_instance

/-- `np.arange(lo, hi)` over integers. -/
def intRange (lo hi : ℤ) : List ℤ :=
  (List.range (hi - lo).toNat).map fun n : ℕ => lo + (n : ℤ)

theorem mem_intRange {lo hi x : ℤ} : x ∈ intRange lo hi ↔ lo ≤ x ∧ x < hi := by
  unfold intRange
  rw [List.mem_map]
  constructor
  · rintro ⟨n, hn, rfl⟩
    rw [List.mem_range] at hn
    omega
  · rintro ⟨h1, h2⟩
    refine ⟨(x - lo).toNat, ?_, ?_⟩
    · rw [List.mem_range]; omega
    · omega

theorem intRange_nodup (lo hi : ℤ) : (intRange lo hi).Nodup := by
  unfold intRange
  exact (List.nodup_range _).map fun a b h => by omega

/-- `VoxelGrid.get_colliding_cells`: clip the translated filled cells to the
grid, keep those landing on a Crown cell (the source gathers the clipped
values, `argwhere`s the equality and re-indexes, which is the same
order-preserving filter). -/
def get_colliding_cells (g : Grid) (filled_translated_cells : List Pos) : List Pos :=
  (trim_mask g filled_translated_cells).filter fun p =>
    decide (g.data p = CellType.crown.value)

theorem mem_get_colliding_cells {g : Grid} {l : List Pos} {p : Pos} :
    p ∈ get_colliding_cells g l ↔ p ∈ l ∧ inBounds g.shape p ∧
      g.data p = CellType.crown.value := by
  simp [get_colliding_cells, List.mem_filter, mem_trim_mask, and_assoc]

/-- The 6-connectivity neighbor offsets of `get_collision_edge_cells`. -/
def neighbor_offsets : List Pos :=
  [(1, 0, 0), (-1, 0, 0), (0, 1, 0), (0, -1, 0), (0, 0, 1), (0, 0, -1)]

/-- The `(N,6,3)`-reshaped neighbor array of `get_collision_edge_cells`: for
each listed cell, its six offset positions. -/
def neighborsOf (cells : List Pos) : List Pos :=
  cells.flatMap fun c => neighbor_offsets.map fun o => c + o

/-- `VoxelGrid.get_collision_edge_cells`: all in-bounds 6-neighbors of the
collision cells that hold Crown in `tree_grid`. -/
def get_collision_edge_cells (g : Grid) (collision_cells : List Pos) : List Pos :=
  (trim_mask g (neighborsOf collision_cells)).filter
    fun p => decide (g.data p = CellType.crown.value)

/-- `VoxelGrid.get_cells_for_sphere`: integer offsets within Euclidean
distance `radius` of the origin.  (numpy's transpose/reshape enumerates the
cube in a different order; the resulting set of offsets is the same, and the
cells are only ever used through clipping, filtering and same-value writes.) -/
def get_cells_for_sphere (radius : ℕ) : List Pos :=
  ((intRange (-(radius : ℤ)) ((radius : ℤ) + 1)).flatMap fun x =>
    (intRange (-(radius : ℤ)) ((radius : ℤ) + 1)).flatMap fun y =>
      (intRange (-(radius : ℤ)) ((radius : ℤ) + 1)).map fun z => (x, y, z)).filter
    fun p => decide (p.1 ^ 2 + p.2.1 ^ 2 + p.2.2 ^ 2 ≤ (radius : ℤ) ^ 2)

/-- `random.choice` over a nonempty list, with the drawn randomness supplied
as an arbitrary natural number (reduced modulo the length, so every element
is a possible outcome).  Only reached with nonempty lists, as in the source. -/
def choose (l : List Pos) (i : ℕ) : Pos := l.getD (i % l.length) (0, 0, 0)

/-- One half of a growth round of `VoxelGrid.assign_collision_cells`: the
awarding grid `gA`, the losing grid `gB`, with `τ` translating A-frame
coordinates into B-frame coordinates.  For the first half of the source's
loop body, `(gA, gB, τ) = (tree1_grid, tree2_grid, translation)`; for the
second half, `(gA, gB, τ) = (tree2_grid, tree1_grid, -translation)`, which
makes the two halves literally the same code. -/
def growth_half (gA gB : Grid) (τ : Pos) (edges : List Pos) (r idx : ℕ) :
    Grid × Grid :=
  let sphere_cells := get_cells_for_sphere r
  let collision_edge_cell := choose edges idx
  let mask := trim_mask gB (sphere_cells.map fun p => p + (collision_edge_cell + τ))
  let mask := trim_mask gA (mask.map fun p => p - τ)
  let conflicted := mask.filter fun p => decide (gA.data p = CellType.collision.value)
  (writeCells gA conflicted CellType.crown.value,
   writeCells gB (conflicted.map fun p => p + τ) CellType.no_tree.value)

/-- One full round of the `for round in range(rounds)` loop: the tree-1 half
followed by the tree-2 half, with one shared sphere radius `rc.1` and the two
`random.choice` draws `rc.2.1`, `rc.2.2`. -/
def growth_round (g1 g2 : Grid) (t : Pos) (e1 e2 : List Pos) (rc : ℕ × ℕ × ℕ) :
    Grid × Grid :=
  let h1 := growth_half g1 g2 t e1 rc.1 rc.2.1
  let h2 := growth_half h1.2 h1.1 (-t) e2 rc.1 rc.2.2
  (h2.2, h2.1)

/-- The source's five growth rounds, with the stream of random draws passed
explicitly (`rand.length = 5` in the source; every theorem below holds for an
arbitrary stream). -/
def growth_rounds (g1 g2 : Grid) (t : Pos) (e1 e2 : List Pos) :
    List (ℕ × ℕ × ℕ) → Grid × Grid
  | [] => (g1, g2)
  | rc :: rest =>
      let gs := growth_round g1 g2 t e1 e2 rc
      growth_rounds gs.1 gs.2 t e1 e2 rest

/-- The boolean mask `(tree_grid != CellType.stem.value) |
(tree_grid != CellType.crown.value)` built (twice) by
`assign_rest_of_collision_cells` and fed to `distance_transform_edt`. -/
def non_owned_mask (g : Grid) (p : Pos) : Bool :=
  (decide (g.data p ≠ CellType.stem.value)) || (decide (g.data p ≠ CellType.crown.value))

/-- `VoxelGrid.assign_rest_of_collision_cells`.  `d1 p` stands for
`tree1_distances[p]` and `d2 q` for `tree2_distances[q]`; both arrays are the
distance transforms of the constant-true `non_owned_mask`, so they are
independent of the cell contents and are abstracted as parameters.  The
source compares the two gathered distance vectors entrywise, entry `i`
belonging to `tree1_collision_cells[i]` and to
`tree2_collision_cells[i] = tree1_collision_cells[i] + translation`. -/
def assign_rest_of_collision_cells (g1 g2 : Grid) (t : Pos) (d1 d2 : Pos → ℚ) :
    Grid × Grid :=
  let tree1_collision_cells := argwhere g1 CellType.collision.value
  let tree1_cells_closer := tree1_collision_cells.filter fun p =>
    decide (d1 p ≤ d2 (p + t))
  let tree1_cells_farther := tree1_collision_cells.filter fun p =>
    decide (d2 (p + t) < d1 p)
  let g1a := writeCells g1 tree1_cells_closer CellType.crown.value
  let g1b := writeCells g1a tree1_cells_farther CellType.no_tree.value
  let tree2_collision_cells := tree1_collision_cells.map fun p => p + t
  let tree2_cells_closer := tree2_collision_cells.filter fun q =>
    decide (d2 q < d1 (q - t))
  let tree2_cells_farther := tree2_collision_cells.filter fun q =>
    decide (d1 (q - t) ≤ d2 q)
  let g2a := writeCells g2 tree2_cells_closer CellType.crown.value
  let g2b := writeCells g2a tree2_cells_farther CellType.no_tree.value
  (g1b, g2b)

/-- `VoxelGrid.assign_collision_cells`: five randomized growth rounds (unless
either side has no edge cells) followed by the distance fallback. -/
def assign_collision_cells (g1 g2 : Grid) (e1 e2 : List Pos) (t : Pos)
    (rand : List (ℕ × ℕ × ℕ)) (d1 d2 : Pos → ℚ) : Grid × Grid :=
  if e1.length = 0 ∨ e2.length = 0 then
    assign_rest_of_collision_cells g1 g2 t d1 d2
  else
    let gs := growth_rounds g1 g2 t e1 e2 rand
    assign_rest_of_collision_cells gs.1 gs.2 t d1 d2

/-- `tree2_collision_cells` of `resolve_collision`: tree 1's Crown cells
(`tree1_filled_cells`) translated into tree 2's coordinate space and kept
where they land on a Crown cell of tree 2. -/
def collidingCells2 (g1 g2 : Grid) (t : Pos) : List Pos :=
  get_colliding_cells g2 ((argwhere g1 CellType.crown.value).map fun p => p + t)

/-- `tree1_collision_cells = tree2_collision_cells - translation`. -/
def collidingCells1 (g1 g2 : Grid) (t : Pos) : List Pos :=
  (collidingCells2 g1 g2 t).map fun p => p - t

/-- `VoxelGrid.resolve_collision` for a pair of trees whose anchor delta is
`t = (x1 - x2, y1 - y2, z1 - z2)` (tree-1 coordinates + `t` = tree-2
coordinates). -/
def resolve_collision (g1 g2 : Grid) (t : Pos) (rand : List (ℕ × ℕ × ℕ))
    (d1 d2 : Pos → ℚ) : Grid × Grid :=
  let tree2_collision_cells := collidingCells2 g1 g2 t
  let tree1_collision_cells := collidingCells1 g1 g2 t
  if tree2_collision_cells.length = 0 then (g1, g2)
  else
    let e1 := get_collision_edge_cells g1 tree1_collision_cells
    let e2 := get_collision_edge_cells g2 tree2_collision_cells
    let g1m := writeCells g1 tree1_collision_cells CellType.collision.value
    let g2m := writeCells g2 tree2_collision_cells CellType.collision.value
    assign_collision_cells g1m g2m e1 e2 t rand d1 d2

/-- All data needed to resolve one candidate pair in an evaluation pass: the
two tree indices and the random / distance-array draws of that resolution. -/
structure PairStep : Type where
  i : ℕ
  j : ℕ
  rand : List (ℕ × ℕ × ℕ)
  d1 : Pos → ℚ
  d2 : Pos → ℚ

/-- Resolving one candidate pair inside the forest's tree list (the
`self.resolve_collision(tree, other_tree)` call of `evaluate_forest`, with
the in-place grid mutations written back to the list). -/
def resolve_pair (trees : List (Pos × Grid)) (st : PairStep) : List (Pos × Grid) :=
  match trees[st.i]?, trees[st.j]? with
  | some t1, some t2 =>
      let t := t1.1 - t2.1
      let r := resolve_collision t1.2 t2.2 t st.rand st.d1 st.d2
      (trees.set st.i (t1.1, r.1)).set st.j (t2.1, r.2)
  | _, _ => trees

/-- A full evaluation pass of `evaluate_forest`: every candidate pair is
resolved in turn, in the (shuffled) order given by `steps`. -/
def evaluate_pass (trees : List (Pos × Grid)) (steps : List PairStep) :
    List (Pos × Grid) :=
  steps.foldl resolve_pair trees

/-! ## The collision-resolution invariants

Throughout resolution of a pair, the contested (`CollisionMarker`) cells of
the two grids stay in bijection under the anchor translation (`PairInv`), and
no cell is Crown in both grids (`NoDouble`).  The potential
`crown₁ + crown₂ + markers₁` is preserved by every growth step and by the
fallback, which yields the counting claims. -/

theorem mem_map_add {l : List Pos} {τ q : Pos} :
    q ∈ l.map (fun p => p + τ) ↔ q - τ ∈ l := by
  rw [List.mem_map]
  constructor
  · rintro ⟨a, ha, rfl⟩
    simpa using ha
  · intro h
    exact ⟨q - τ, h, by simp⟩

theorem mem_map_sub {l : List Pos} {τ q : Pos} :
    q ∈ l.map (fun p => p - τ) ↔ q + τ ∈ l := by
  rw [List.mem_map]
  constructor
  · rintro ⟨a, ha, rfl⟩
    simpa using ha
  · intro h
    exact ⟨q + τ, h, by simp⟩

/-- Contested cells of the two grids correspond under the translation (both
in bounds on their own side). -/
def PairInv (g1 g2 : Grid) (t : Pos) : Prop :=
  ∀ p : Pos,
    (inBounds g1.shape p ∧ g1.data p = CellType.collision.value) ↔
      (inBounds g2.shape (p + t) ∧ g2.data (p + t) = CellType.collision.value)

/-- No cell is Crown in both grids (under the translation). -/
def NoDouble (g1 g2 : Grid) (t : Pos) : Prop :=
  ∀ p : Pos, inBounds g1.shape p → g1.data p = CellType.crown.value →
    inBounds g2.shape (p + t) → g2.data (p + t) ≠ CellType.crown.value

theorem pairInv_swap {g1 g2 : Grid} {t : Pos} (h : PairInv g1 g2 t) :
    PairInv g2 g1 (-t) := by
  intro q
  have := (h (q - t)).symm
  simpa [sub_eq_add_neg] using this

theorem noDouble_swap {g1 g2 : Grid} {t : Pos} (h : NoDouble g1 g2 t) :
    NoDouble g2 g1 (-t) := by
  intro q hq2 hcrown hq1 hc1
  have := h (q + -t) hq1 hc1
  simp only [neg_add_cancel_right] at this
  exact this hq2 hcrown

/-- Under `PairInv`, the contested cells of `g2` are the image of those of
`g1`, so the marker counts agree. -/
theorem collision_card_eq {g1 g2 : Grid} {t : Pos} (h : PairInv g1 g2 t) :
    (cellsWith g2 CellType.collision.value).card =
      (cellsWith g1 CellType.collision.value).card := by
  have himg : cellsWith g2 CellType.collision.value =
      (cellsWith g1 CellType.collision.value).image (fun p => p + t) := by
    ext q
    rw [Finset.mem_image]
    constructor
    · intro hq
      rw [mem_cellsWith] at hq
      refine ⟨q - t, ?_, by simp⟩
      rw [mem_cellsWith]
      apply (h (q - t)).mpr
      simpa using hq
    · rintro ⟨p, hp, rfl⟩
      rw [mem_cellsWith] at hp ⊢
      exact (h p).mp ⟨hp.1, hp.2⟩
  rw [himg, Finset.card_image_of_injective _ (add_left_injective t)]

/-- The conserved potential of one side of a resolution step. -/
def phi (g1 g2 : Grid) : ℕ :=
  crownCount g1 + crownCount g2 + (cellsWith g1 CellType.collision.value).card

theorem phi_symm {g1 g2 : Grid} {t : Pos} (h : PairInv g1 g2 t) :
    phi g2 g1 = phi g1 g2 := by
  unfold phi
  rw [collision_card_eq h]
  omega

theorem cellsWith_writeCells_self (g : Grid) (l : List Pos) (v : ℕ) :
    cellsWith (writeCells g l v) v = cellsWith g v ∪ (bnd g.shape ∩ l.toFinset) := by
  ext p
  simp only [mem_cellsWith, Finset.mem_union, Finset.mem_inter, mem_bnd,
    List.mem_toFinset, writeCells_shape, writeCells]
  by_cases hp : p ∈ l <;> simp [hp] <;> tauto

theorem cellsWith_writeCells_ne (g : Grid) (l : List Pos) {v w : ℕ} (hvw : v ≠ w) :
    cellsWith (writeCells g l v) w = cellsWith g w \ l.toFinset := by
  ext p
  simp only [mem_cellsWith, Finset.mem_sdiff, List.mem_toFinset, writeCells_shape,
    writeCells]
  by_cases hp : p ∈ l <;> simp [hp] <;> tauto

theorem card_write_self (g : Grid) (l : List Pos) (v : ℕ)
    (hb : ∀ p ∈ l, inBounds g.shape p) (hne : ∀ p ∈ l, g.data p ≠ v) :
    (cellsWith (writeCells g l v) v).card = (cellsWith g v).card + l.toFinset.card := by
  rw [cellsWith_writeCells_self]
  have h1 : bnd g.shape ∩ l.toFinset = l.toFinset := by
    apply Finset.inter_eq_right.mpr
    intro p hp
    rw [List.mem_toFinset] at hp
    exact mem_bnd.mpr (hb p hp)
  rw [h1, Finset.card_union_of_disjoint]
  rw [Finset.disjoint_left]
  intro p hp hpl
  rw [mem_cellsWith] at hp
  rw [List.mem_toFinset] at hpl
  exact hne p hpl hp.2

theorem card_write_ne_subset (g : Grid) (l : List Pos) {v w : ℕ} (hvw : v ≠ w)
    (hsub : l.toFinset ⊆ cellsWith g w) :
    (cellsWith (writeCells g l v) w).card = (cellsWith g w).card - l.toFinset.card := by
  rw [cellsWith_writeCells_ne g l hvw, Finset.card_sdiff hsub]

theorem cellsWith_write_ne_of_disjoint (g : Grid) (l : List Pos) {v w : ℕ}
    (hvw : v ≠ w) (hd : ∀ p ∈ l, g.data p ≠ w) :
    cellsWith (writeCells g l v) w = cellsWith g w := by
  rw [cellsWith_writeCells_ne g l hvw]
  refine Finset.sdiff_eq_self_iff_disjoint.mpr ?_
  rw [Finset.disjoint_left]
  intro p hp hpl
  rw [mem_cellsWith] at hp
  rw [List.mem_toFinset] at hpl
  exact hd p hpl hp.2

/-- Awarding step: promote the contested cells `conflicted` to Crown in the
awarding grid `gA` and clear their partners in `gB`.  Both invariants and the
potential are preserved. -/
theorem award_spec (gA gB : Grid) (τ : Pos) (conflicted : List Pos)
    (hc : ∀ p ∈ conflicted,
      inBounds gA.shape p ∧ gA.data p = CellType.collision.value)
    (hP : PairInv gA gB τ) (hN : NoDouble gA gB τ) :
    PairInv (writeCells gA conflicted CellType.crown.value)
        (writeCells gB (conflicted.map fun p => p + τ) CellType.no_tree.value) τ ∧
      NoDouble (writeCells gA conflicted CellType.crown.value)
        (writeCells gB (conflicted.map fun p => p + τ) CellType.no_tree.value) τ ∧
      phi (writeCells gA conflicted CellType.crown.value)
          (writeCells gB (conflicted.map fun p => p + τ) CellType.no_tree.value) =
        phi gA gB := by
  set gA' := writeCells gA conflicted CellType.crown.value with hgA
  set gB' := writeCells gB (conflicted.map fun p => p + τ) CellType.no_tree.value with hgB
  have hmemB : ∀ q : Pos, q ∈ conflicted.map (fun p => p + τ) ↔ q - τ ∈ conflicted :=
    fun q => mem_map_add
  have hBside : ∀ p ∈ conflicted,
      inBounds gB.shape (p + τ) ∧ gB.data (p + τ) = CellType.collision.value := by
    intro p hp
    exact (hP p).mp ⟨(hc p hp).1, (hc p hp).2⟩
  have hdataA : ∀ p : Pos, gA'.data p =
      if p ∈ conflicted then CellType.crown.value else gA.data p := fun p => rfl
  have hdataB : ∀ q : Pos, gB'.data q =
      if q ∈ conflicted.map (fun p => p + τ) then CellType.no_tree.value
      else gB.data q := fun q => rfl
  refine ⟨?_, ?_, ?_⟩
  · -- PairInv
    intro p
    show inBounds gA.shape p ∧ gA'.data p = _ ↔
      inBounds gB.shape (p + τ) ∧ gB'.data (p + τ) = _
    rw [hdataA p, hdataB (p + τ)]
    by_cases hp : p ∈ conflicted
    · rw [if_pos hp, if_pos (List.mem_map.mpr ⟨p, hp, rfl⟩)]
      simp [CellType.value]
    · rw [if_neg hp, if_neg (fun hmem => hp (by simpa using (hmemB _).mp hmem))]
      exact hP p
  · -- NoDouble
    intro p hpA hcrown hpB
    have hpA' : inBounds gA.shape p := hpA
    have hpB' : inBounds gB.shape (p + τ) := hpB
    rw [hdataB (p + τ)]
    by_cases hp : p ∈ conflicted
    · rw [if_pos (List.mem_map.mpr ⟨p, hp, rfl⟩)]
      simp [CellType.value]
    · rw [if_neg (fun hmem => hp (by simpa using (hmemB _).mp hmem))]
      rw [hdataA p, if_neg hp] at hcrown
      exact hN p hpA' hcrown hpB'
  · -- potential
    have hA2 : (cellsWith gA' CellType.crown.value).card =
        (cellsWith gA CellType.crown.value).card + conflicted.toFinset.card := by
      apply card_write_self
      · exact fun p hp => (hc p hp).1
      · intro p hp h
        rw [(hc p hp).2] at h
        exact absurd h (by decide)
    have hA3 : (cellsWith gA' CellType.collision.value).card =
        (cellsWith gA CellType.collision.value).card - conflicted.toFinset.card := by
      apply card_write_ne_subset _ _ (by decide)
      intro p hp
      rw [List.mem_toFinset] at hp
      rw [mem_cellsWith]
      exact hc p hp
    have hsub : conflicted.toFinset ⊆ cellsWith gA CellType.collision.value := by
      intro p hp
      rw [List.mem_toFinset] at hp
      rw [mem_cellsWith]
      exact hc p hp
    have hle : conflicted.toFinset.card ≤
        (cellsWith gA CellType.collision.value).card := Finset.card_le_card hsub
    have hB2 : cellsWith gB' CellType.crown.value = cellsWith gB CellType.crown.value := by
      apply cellsWith_write_ne_of_disjoint _ _ (by decide)
      intro q hq h
      rw [List.mem_map] at hq
      obtain ⟨p, hp, rfl⟩ := hq
      rw [(hBside p hp).2] at h
      exact absurd h (by decide)
    unfold phi crownCount
    rw [hA2, hA3, hB2]
    omega

theorem growth_half_spec (gA gB : Grid) (τ : Pos) (edges : List Pos) (r idx : ℕ)
    (hP : PairInv gA gB τ) (hN : NoDouble gA gB τ) :
    PairInv (growth_half gA gB τ edges r idx).1 (growth_half gA gB τ edges r idx).2 τ ∧
      NoDouble (growth_half gA gB τ edges r idx).1 (growth_half gA gB τ edges r idx).2 τ ∧
      phi (growth_half gA gB τ edges r idx).1 (growth_half gA gB τ edges r idx).2 =
        phi gA gB := by
  have hc : ∀ p ∈ (trim_mask gA
        ((trim_mask gB ((get_cells_for_sphere r).map fun p =>
          p + (choose edges idx + τ))).map fun p => p - τ)).filter
        (fun p => decide (gA.data p = CellType.collision.value)),
      inBounds gA.shape p ∧ gA.data p = CellType.collision.value := by
    intro p hp
    rw [List.mem_filter] at hp
    obtain ⟨hpm, hpv⟩ := hp
    rw [mem_trim_mask] at hpm
    exact ⟨hpm.2, by simpa using hpv⟩
  exact award_spec gA gB τ _ hc hP hN

theorem growth_half_shape1 (gA gB : Grid) (τ : Pos) (e : List Pos) (r i : ℕ) :
    (growth_half gA gB τ e r i).1.shape = gA.shape := by
  simp only [growth_half, writeCells_shape]

theorem growth_half_shape2 (gA gB : Grid) (τ : Pos) (e : List Pos) (r i : ℕ) :
    (growth_half gA gB τ e r i).2.shape = gB.shape := by
  simp only [growth_half, writeCells_shape]

theorem growth_round_eq (g1 g2 : Grid) (t : Pos) (e1 e2 : List Pos) (rc : ℕ × ℕ × ℕ) :
    growth_round g1 g2 t e1 e2 rc =
      ((growth_half (growth_half g1 g2 t e1 rc.1 rc.2.1).2
          (growth_half g1 g2 t e1 rc.1 rc.2.1).1 (-t) e2 rc.1 rc.2.2).2,
        (growth_half (growth_half g1 g2 t e1 rc.1 rc.2.1).2
          (growth_half g1 g2 t e1 rc.1 rc.2.1).1 (-t) e2 rc.1 rc.2.2).1) := rfl

theorem growth_round_spec (g1 g2 : Grid) (t : Pos) (e1 e2 : List Pos) (rc : ℕ × ℕ × ℕ)
    (hP : PairInv g1 g2 t) (hN : NoDouble g1 g2 t) :
    PairInv (growth_round g1 g2 t e1 e2 rc).1 (growth_round g1 g2 t e1 e2 rc).2 t ∧
      NoDouble (growth_round g1 g2 t e1 e2 rc).1 (growth_round g1 g2 t e1 e2 rc).2 t ∧
      phi (growth_round g1 g2 t e1 e2 rc).1 (growth_round g1 g2 t e1 e2 rc).2 =
        phi g1 g2 := by
  obtain ⟨h1P, h1N, h1phi⟩ := growth_half_spec g1 g2 t e1 rc.1 rc.2.1 hP hN
  obtain ⟨h2P, h2N, h2phi⟩ := growth_half_spec
    (growth_half g1 g2 t e1 rc.1 rc.2.1).2 (growth_half g1 g2 t e1 rc.1 rc.2.1).1
    (-t) e2 rc.1 rc.2.2 (pairInv_swap h1P) (noDouble_swap h1N)
  have hPfin := pairInv_swap h2P
  rw [neg_neg] at hPfin
  have hNfin := noDouble_swap h2N
  rw [neg_neg] at hNfin
  rw [growth_round_eq]
  refine ⟨hPfin, hNfin, ?_⟩
  exact (((phi_symm h2P).trans h2phi).trans (phi_symm h1P)).trans h1phi

theorem growth_rounds_cons (g1 g2 : Grid) (t : Pos) (e1 e2 : List Pos)
    (rc : ℕ × ℕ × ℕ) (rest : List (ℕ × ℕ × ℕ)) :
    growth_rounds g1 g2 t e1 e2 (rc :: rest) =
      growth_rounds (growth_round g1 g2 t e1 e2 rc).1
        (growth_round g1 g2 t e1 e2 rc).2 t e1 e2 rest := by
  simp only [growth_rounds]

theorem growth_round_shape1 (g1 g2 : Grid) (t : Pos) (e1 e2 : List Pos)
    (rc : ℕ × ℕ × ℕ) : (growth_round g1 g2 t e1 e2 rc).1.shape = g1.shape := by
  simp only [growth_round_eq, growth_half_shape2, growth_half_shape1]

theorem growth_round_shape2 (g1 g2 : Grid) (t : Pos) (e1 e2 : List Pos)
    (rc : ℕ × ℕ × ℕ) : (growth_round g1 g2 t e1 e2 rc).2.shape = g2.shape := by
  simp only [growth_round_eq, growth_half_shape2, growth_half_shape1]

theorem growth_rounds_spec (t : Pos) (e1 e2 : List Pos) (rand : List (ℕ × ℕ × ℕ)) :
    ∀ g1 g2 : Grid, PairInv g1 g2 t → NoDouble g1 g2 t →
      PairInv (growth_rounds g1 g2 t e1 e2 rand).1 (growth_rounds g1 g2 t e1 e2 rand).2 t ∧
        NoDouble (growth_rounds g1 g2 t e1 e2 rand).1
          (growth_rounds g1 g2 t e1 e2 rand).2 t ∧
        phi (growth_rounds g1 g2 t e1 e2 rand).1 (growth_rounds g1 g2 t e1 e2 rand).2 =
          phi g1 g2 ∧
        (growth_rounds g1 g2 t e1 e2 rand).1.shape = g1.shape ∧
        (growth_rounds g1 g2 t e1 e2 rand).2.shape = g2.shape := by
  induction rand with
  | nil => exact fun g1 g2 hP hN => ⟨hP, hN, rfl, rfl, rfl⟩
  | cons rc rest ih =>
      intro g1 g2 hP hN
      obtain ⟨hP1, hN1, hphi1⟩ := growth_round_spec g1 g2 t e1 e2 rc hP hN
      obtain ⟨hP2, hN2, hphi2, hs1, hs2⟩ :=
        ih (growth_round g1 g2 t e1 e2 rc).1 (growth_round g1 g2 t e1 e2 rc).2 hP1 hN1
      rw [growth_rounds_cons]
      exact ⟨hP2, hN2, hphi2.trans hphi1,
        hs1.trans (growth_round_shape1 g1 g2 t e1 e2 rc),
        hs2.trans (growth_round_shape2 g1 g2 t e1 e2 rc)⟩

theorem mem_collidingCells2 {g1 g2 : Grid} {t : Pos} {q : Pos} :
    q ∈ collidingCells2 g1 g2 t ↔
      inBounds g1.shape (q - t) ∧ g1.data (q - t) = CellType.crown.value ∧
        inBounds g2.shape q ∧ g2.data q = CellType.crown.value := by
  unfold collidingCells2
  rw [mem_get_colliding_cells, mem_map_add, mem_argwhere]
  tauto

theorem mem_collidingCells1 {g1 g2 : Grid} {t : Pos} {p : Pos} :
    p ∈ collidingCells1 g1 g2 t ↔
      inBounds g1.shape p ∧ g1.data p = CellType.crown.value ∧
        inBounds g2.shape (p + t) ∧ g2.data (p + t) = CellType.crown.value := by
  unfold collidingCells1
  rw [mem_map_sub, mem_collidingCells2]
  simp

theorem NoMarkers.not_collision {g : Grid} (h : NoMarkers g) {p : Pos}
    (hp : inBounds g.shape p) : g.data p ≠ CellType.collision.value :=
  h p (mem_allPositions.mpr hp)

/-- Marking the contested cells `CollisionMarker` in both grids establishes
both invariants, and drops the potential by the number of contested cells. -/
theorem mark_spec (g1 g2 : Grid) (t : Pos) (h1 : NoMarkers g1) (h2 : NoMarkers g2) :
    PairInv (writeCells g1 (collidingCells1 g1 g2 t) CellType.collision.value)
        (writeCells g2 (collidingCells2 g1 g2 t) CellType.collision.value) t ∧
      NoDouble (writeCells g1 (collidingCells1 g1 g2 t) CellType.collision.value)
        (writeCells g2 (collidingCells2 g1 g2 t) CellType.collision.value) t ∧
      phi (writeCells g1 (collidingCells1 g1 g2 t) CellType.collision.value)
          (writeCells g2 (collidingCells2 g1 g2 t) CellType.collision.value) ≤
        crownCount g1 + crownCount g2 := by
  set cc1 := collidingCells1 g1 g2 t with hcc1
  set cc2 := collidingCells2 g1 g2 t with hcc2
  set g1m := writeCells g1 cc1 CellType.collision.value with hg1m
  set g2m := writeCells g2 cc2 CellType.collision.value with hg2m
  have hdata1 : ∀ p : Pos, g1m.data p =
      if p ∈ cc1 then CellType.collision.value else g1.data p := fun p => rfl
  have hdata2 : ∀ q : Pos, g2m.data q =
      if q ∈ cc2 then CellType.collision.value else g2.data q := fun q => rfl
  have hcc12 : ∀ p : Pos, p ∈ cc1 ↔ p + t ∈ cc2 := by
    intro p
    rw [hcc1, collidingCells1, mem_map_sub]
  refine ⟨?_, ?_, ?_⟩
  · -- PairInv
    intro p
    show inBounds g1.shape p ∧ g1m.data p = _ ↔ inBounds g2.shape (p + t) ∧ g2m.data (p + t) = _
    rw [hdata1 p, hdata2 (p + t)]
    by_cases hp : p ∈ cc1
    · rw [if_pos hp, if_pos ((hcc12 p).mp hp)]
      have hm := mem_collidingCells1.mp hp
      simp [hm.1, hm.2.2.1]
    · rw [if_neg hp, if_neg (fun hmem => hp ((hcc12 p).mpr hmem))]
      constructor
      · rintro ⟨hb, hv⟩
        exact absurd hv (h1.not_collision hb)
      · rintro ⟨hb, hv⟩
        exact absurd hv (h2.not_collision hb)
  · -- NoDouble
    intro p hp1 hcrown hp2 hcontra
    have hp1' : inBounds g1.shape p := hp1
    have hp2' : inBounds g2.shape (p + t) := hp2
    rw [hdata1 p] at hcrown
    rw [hdata2 (p + t)] at hcontra
    by_cases hp : p ∈ cc1
    · rw [if_pos hp] at hcrown
      exact absurd hcrown (by decide)
    · rw [if_neg hp] at hcrown
      rw [if_neg (fun hmem => hp ((hcc12 p).mpr hmem))] at hcontra
      exact hp (mem_collidingCells1.mpr ⟨hp1', hcrown, hp2', hcontra⟩)
  · -- potential
    have hsub1 : cc1.toFinset ⊆ cellsWith g1 CellType.crown.value := by
      intro p hp
      rw [List.mem_toFinset] at hp
      have hm := mem_collidingCells1.mp hp
      rw [mem_cellsWith]
      exact ⟨hm.1, hm.2.1⟩
    have hsub2 : cc2.toFinset ⊆ cellsWith g2 CellType.crown.value := by
      intro q hq
      rw [List.mem_toFinset] at hq
      have hm := mem_collidingCells2.mp hq
      rw [mem_cellsWith]
      exact ⟨hm.2.2.1, hm.2.2.2⟩
    have hcard1 : crownCount g1m = crownCount g1 - cc1.toFinset.card :=
      card_write_ne_subset g1 cc1 (by decide) hsub1
    have hcard2 : crownCount g2m = crownCount g2 - cc2.toFinset.card :=
      card_write_ne_subset g2 cc2 (by decide) hsub2
    have hempty : cellsWith g1 CellType.collision.value = ∅ := by
      ext p
      rw [mem_cellsWith]
      simp only [Finset.not_mem_empty, iff_false]
      rintro ⟨hb, hv⟩
      exact h1.not_collision hb hv
    have hcoll : (cellsWith g1m CellType.collision.value).card = cc1.toFinset.card := by
      rw [show cellsWith g1m CellType.collision.value =
          cellsWith g1 CellType.collision.value ∪ (bnd g1.shape ∩ cc1.toFinset) from
        cellsWith_writeCells_self g1 cc1 _, hempty]
      have : bnd g1.shape ∩ cc1.toFinset = cc1.toFinset := by
        apply Finset.inter_eq_right.mpr
        intro p hp
        rw [List.mem_toFinset] at hp
        exact mem_bnd.mpr (mem_collidingCells1.mp hp).1
      rw [this, Finset.empty_union]
    have hccimg : cc1.toFinset = cc2.toFinset.image (fun p => p - t) := by
      ext p
      rw [Finset.mem_image]
      simp only [List.mem_toFinset]
      constructor
      · intro hp
        exact ⟨p + t, (hcc12 p).mp hp, by simp⟩
      · rintro ⟨q, hq, rfl⟩
        exact (hcc12 (q - t)).mpr (by simpa using hq)
    have hcceq : cc1.toFinset.card = cc2.toFinset.card := by
      rw [hccimg]
      exact Finset.card_image_of_injective _ sub_left_injective
    have hle1 : cc1.toFinset.card ≤ crownCount g1 := Finset.card_le_card hsub1
    have hle2 : cc2.toFinset.card ≤ crownCount g2 := Finset.card_le_card hsub2
    unfold phi
    rw [hcard1, hcard2, hcoll]
    omega

theorem assign_rest_eq (g1 g2 : Grid) (t : Pos) (d1 d2 : Pos → ℚ) :
    assign_rest_of_collision_cells g1 g2 t d1 d2 =
      (writeCells
          (writeCells g1
            ((argwhere g1 CellType.collision.value).filter fun p =>
              decide (d1 p ≤ d2 (p + t))) CellType.crown.value)
          ((argwhere g1 CellType.collision.value).filter fun p =>
            decide (d2 (p + t) < d1 p)) CellType.no_tree.value,
        writeCells
          (writeCells g2
            ((((argwhere g1 CellType.collision.value).map fun p => p + t)).filter fun q =>
              decide (d2 q < d1 (q - t))) CellType.crown.value)
          ((((argwhere g1 CellType.collision.value).map fun p => p + t)).filter fun q =>
            decide (d1 (q - t) ≤ d2 q)) CellType.no_tree.value) := rfl

/-- The fallback's assignment rule itself: a still-contested cell goes to
tree 1 exactly when tree 1's distance is `≤` tree 2's (ties to tree 1), and to
tree 2 exactly when tree 2's distance is strictly smaller; the other grid's
corresponding cell is cleared. -/
theorem assign_rest_rule (g1 g2 : Grid) (t : Pos) (d1 d2 : Pos → ℚ) (p : Pos)
    (hp : p ∈ argwhere g1 CellType.collision.value) :
    (d1 p ≤ d2 (p + t) →
      (assign_rest_of_collision_cells g1 g2 t d1 d2).1.data p = CellType.crown.value ∧
        (assign_rest_of_collision_cells g1 g2 t d1 d2).2.data (p + t) =
          CellType.no_tree.value) ∧
    (d2 (p + t) < d1 p →
      (assign_rest_of_collision_cells g1 g2 t d1 d2).1.data p = CellType.no_tree.value ∧
        (assign_rest_of_collision_cells g1 g2 t d1 d2).2.data (p + t) =
          CellType.crown.value) := by
  rw [assign_rest_eq]
  constructor
  · intro hle
    constructor
    · rw [writeCells_data_of_not_mem, writeCells_data_of_mem]
      · rw [List.mem_filter]
        exact ⟨hp, by simpa using hle⟩
      · rw [List.mem_filter]
        rintro ⟨-, hcond⟩
        rw [decide_eq_true_eq] at hcond
        exact absurd hle (not_le.mpr hcond)
    · rw [writeCells_data_of_mem]
      rw [List.mem_filter]
      refine ⟨List.mem_map.mpr ⟨p, hp, rfl⟩, ?_⟩
      rw [decide_eq_true_eq]
      simpa using hle
  · intro hlt
    constructor
    · rw [writeCells_data_of_mem]
      rw [List.mem_filter]
      exact ⟨hp, by simpa using hlt⟩
    · rw [writeCells_data_of_not_mem, writeCells_data_of_mem]
      · rw [List.mem_filter]
        refine ⟨List.mem_map.mpr ⟨p, hp, rfl⟩, ?_⟩
        rw [decide_eq_true_eq]
        simpa using hlt
      · rw [List.mem_filter]
        rintro ⟨-, hcond⟩
        rw [decide_eq_true_eq] at hcond
        simp only [add_sub_cancel_right] at hcond
        exact absurd hlt (not_lt.mpr hcond)

/-- The fallback clears every marker, keeps `NoDouble`, and converts the
whole potential into Crown cells. -/
theorem assign_rest_spec (g1 g2 : Grid) (t : Pos) (d1 d2 : Pos → ℚ)
    (hP : PairInv g1 g2 t) (hN : NoDouble g1 g2 t) :
    NoMarkers (assign_rest_of_collision_cells g1 g2 t d1 d2).1 ∧
      NoMarkers (assign_rest_of_collision_cells g1 g2 t d1 d2).2 ∧
      NoDouble (assign_rest_of_collision_cells g1 g2 t d1 d2).1
        (assign_rest_of_collision_cells g1 g2 t d1 d2).2 t ∧
      crownCount (assign_rest_of_collision_cells g1 g2 t d1 d2).1 +
        crownCount (assign_rest_of_collision_cells g1 g2 t d1 d2).2 = phi g1 g2 ∧
      (assign_rest_of_collision_cells g1 g2 t d1 d2).1.shape = g1.shape ∧
      (assign_rest_of_collision_cells g1 g2 t d1 d2).2.shape = g2.shape := by
  rw [assign_rest_eq]
  set cc1 := argwhere g1 CellType.collision.value with hcc1def
  set c1 := cc1.filter (fun p => decide (d1 p ≤ d2 (p + t))) with hc1def
  set f1 := cc1.filter (fun p => decide (d2 (p + t) < d1 p)) with hf1def
  set cc2 := cc1.map (fun p => p + t) with hcc2def
  set c2 := cc2.filter (fun q => decide (d2 q < d1 (q - t))) with hc2def
  set f2 := cc2.filter (fun q => decide (d1 (q - t) ≤ d2 q)) with hf2def
  have hmcc1 : ∀ p : Pos, p ∈ cc1 ↔
      inBounds g1.shape p ∧ g1.data p = CellType.collision.value := fun p => mem_argwhere
  have hmcc2 : ∀ q : Pos, q ∈ cc2 ↔ q - t ∈ cc1 := by
    intro q
    rw [hcc2def]
    exact mem_map_add
  have hmc1 : ∀ p : Pos, p ∈ c1 ↔ p ∈ cc1 ∧ d1 p ≤ d2 (p + t) := by
    intro p
    rw [hc1def, List.mem_filter, decide_eq_true_eq]
  have hmf1 : ∀ p : Pos, p ∈ f1 ↔ p ∈ cc1 ∧ d2 (p + t) < d1 p := by
    intro p
    rw [hf1def, List.mem_filter, decide_eq_true_eq]
  have hmc2 : ∀ q : Pos, q ∈ c2 ↔ q - t ∈ cc1 ∧ d2 q < d1 (q - t) := by
    intro q
    rw [hc2def, List.mem_filter, decide_eq_true_eq, hmcc2]
  have hmf2 : ∀ q : Pos, q ∈ f2 ↔ q - t ∈ cc1 ∧ d1 (q - t) ≤ d2 q := by
    intro q
    rw [hf2def, List.mem_filter, decide_eq_true_eq, hmcc2]
  have hBside : ∀ q : Pos, q - t ∈ cc1 →
      inBounds g2.shape q ∧ g2.data q = CellType.collision.value := by
    intro q hq
    rw [hmcc1] at hq
    have := (hP (q - t)).mp hq
    simpa using this
  have hd1 : ∀ p : Pos,
      (writeCells (writeCells g1 c1 CellType.crown.value) f1 CellType.no_tree.value).data p =
        if p ∈ f1 then CellType.no_tree.value
        else if p ∈ c1 then CellType.crown.value else g1.data p := fun p => rfl
  have hd2 : ∀ q : Pos,
      (writeCells (writeCells g2 c2 CellType.crown.value) f2 CellType.no_tree.value).data q =
        if q ∈ f2 then CellType.no_tree.value
        else if q ∈ c2 then CellType.crown.value else g2.data q := fun q => rfl
  refine ⟨?_, ?_, ?_, ?_, rfl, rfl⟩
  · -- no markers left in grid 1
    intro p hpmem
    rw [hd1 p]
    by_cases hpf : p ∈ f1
    · rw [if_pos hpf]
      decide
    by_cases hpc : p ∈ c1
    · rw [if_neg hpf, if_pos hpc]
      decide
    rw [if_neg hpf, if_neg hpc]
    intro hval
    have hpcc : p ∈ cc1 := (hmcc1 p).mpr ⟨mem_allPositions.mp hpmem, hval⟩
    rcases le_or_lt (d1 p) (d2 (p + t)) with h | h
    · exact hpc ((hmc1 p).mpr ⟨hpcc, h⟩)
    · exact hpf ((hmf1 p).mpr ⟨hpcc, h⟩)
  · -- no markers left in grid 2
    intro q hqmem
    rw [hd2 q]
    by_cases hqf : q ∈ f2
    · rw [if_pos hqf]
      decide
    by_cases hqc : q ∈ c2
    · rw [if_neg hqf, if_pos hqc]
      decide
    rw [if_neg hqf, if_neg hqc]
    intro hval
    have hq1 : q - t ∈ cc1 := by
      rw [hmcc1]
      apply (hP (q - t)).mpr
      constructor
      · simpa using mem_allPositions.mp hqmem
      · simpa using hval
    rcases le_or_lt (d1 (q - t)) (d2 q) with h | h
    · exact hqf ((hmf2 q).mpr ⟨hq1, h⟩)
    · exact hqc ((hmc2 q).mpr ⟨hq1, h⟩)
  · -- NoDouble preserved
    intro p hp1 hcrown hp2 hcontra
    have hp1' : inBounds g1.shape p := hp1
    have hp2' : inBounds g2.shape (p + t) := hp2
    rw [hd1 p] at hcrown
    rw [hd2 (p + t)] at hcontra
    by_cases hpf : p ∈ f1
    · rw [if_pos hpf] at hcrown
      exact absurd hcrown (by decide)
    by_cases hpc : p ∈ c1
    · have hmem : p + t ∈ f2 := by
        rw [hmf2]
        have := (hmc1 p).mp hpc
        exact ⟨by simpa using this.1, by simpa using this.2⟩
      rw [if_pos hmem] at hcontra
      exact absurd hcontra (by decide)
    · rw [if_neg hpf, if_neg hpc] at hcrown
      have hnotcc : p ∉ cc1 := by
        intro hmem
        rw [hmcc1] at hmem
        rw [hcrown] at hmem
        exact absurd hmem.2 (by decide)
      have hq2f : p + t ∉ f2 := by
        rw [hmf2]
        rintro ⟨hmem, -⟩
        exact hnotcc (by simpa using hmem)
      have hq2c : p + t ∉ c2 := by
        rw [hmc2]
        rintro ⟨hmem, -⟩
        exact hnotcc (by simpa using hmem)
      rw [if_neg hq2f, if_neg hq2c] at hcontra
      exact hN p hp1' hcrown hp2' hcontra
  · -- counting: the whole potential becomes Crown
    have hexcl1 : ∀ p ∈ f1, p ∉ c1 := by
      intro p hpf hpc
      exact absurd ((hmc1 p).mp hpc).2 (not_le.mpr ((hmf1 p).mp hpf).2)
    have hexcl2 : ∀ q ∈ f2, q ∉ c2 := by
      intro q hqf hqc
      exact absurd ((hmf2 q).mp hqf).2 (not_le.mpr ((hmc2 q).mp hqc).2)
    have hcount1 : (cellsWith (writeCells (writeCells g1 c1 CellType.crown.value) f1
        CellType.no_tree.value) CellType.crown.value).card =
        crownCount g1 + c1.toFinset.card := by
      rw [cellsWith_write_ne_of_disjoint _ f1 (by decide)]
      · exact card_write_self g1 c1 _
          (fun p hp => ((hmcc1 p).mp ((hmc1 p).mp hp).1).1)
          (fun p hp h => absurd (((hmcc1 p).mp ((hmc1 p).mp hp).1).2.symm.trans h)
            (by decide))
      · intro p hpf
        rw [writeCells_data_of_not_mem (hexcl1 p hpf)]
        intro h
        exact absurd (((hmcc1 p).mp ((hmf1 p).mp hpf).1).2.symm.trans h) (by decide)
    have hcount2 : (cellsWith (writeCells (writeCells g2 c2 CellType.crown.value) f2
        CellType.no_tree.value) CellType.crown.value).card =
        crownCount g2 + c2.toFinset.card := by
      rw [cellsWith_write_ne_of_disjoint _ f2 (by decide)]
      · exact card_write_self g2 c2 _
          (fun q hq => (hBside q ((hmc2 q).mp hq).1).1)
          (fun q hq h => absurd ((hBside q ((hmc2 q).mp hq).1).2.symm.trans h)
            (by decide))
      · intro q hqf
        rw [writeCells_data_of_not_mem (hexcl2 q hqf)]
        intro h
        exact absurd ((hBside q ((hmf2 q).mp hqf).1).2.symm.trans h) (by decide)
    have himg : c2.toFinset = f1.toFinset.image (fun p => p + t) := by
      ext q
      rw [Finset.mem_image]
      simp only [List.mem_toFinset]
      constructor
      · intro hq
        obtain ⟨hmem, hcond⟩ := (hmc2 q).mp hq
        refine ⟨q - t, ?_, by simp⟩
        rw [hmf1]
        exact ⟨hmem, by simpa using hcond⟩
      · rintro ⟨p, hpf, rfl⟩
        obtain ⟨hmem, hcond⟩ := (hmf1 p).mp hpf
        rw [hmc2]
        exact ⟨by simpa using hmem, by simpa using hcond⟩
    have hc2card : c2.toFinset.card = f1.toFinset.card := by
      rw [himg]
      exact Finset.card_image_of_injective _ (add_left_injective t)
    have hunion : c1.toFinset ∪ f1.toFinset = cc1.toFinset := by
      ext p
      simp only [Finset.mem_union, List.mem_toFinset]
      constructor
      · rintro (hp | hp)
        · exact ((hmc1 p).mp hp).1
        · exact ((hmf1 p).mp hp).1
      · intro hp
        rcases le_or_lt (d1 p) (d2 (p + t)) with h | h
        · exact Or.inl ((hmc1 p).mpr ⟨hp, h⟩)
        · exact Or.inr ((hmf1 p).mpr ⟨hp, h⟩)
    have hdisj : Disjoint c1.toFinset f1.toFinset := by
      rw [Finset.disjoint_right]
      intro p hpf hpc
      rw [List.mem_toFinset] at hpf hpc
      exact hexcl1 p hpf hpc
    have hccfin : cc1.toFinset = cellsWith g1 CellType.collision.value := by
      ext p
      rw [List.mem_toFinset, hmcc1 p, mem_cellsWith]
    have hsplit : c1.toFinset.card + f1.toFinset.card =
        (cellsWith g1 CellType.collision.value).card := by
      rw [← hccfin, ← hunion, Finset.card_union_of_disjoint hdisj]
    unfold phi
    dsimp only
    simp only [crownCount] at hcount1 hcount2 ⊢
    rw [hcount1, hcount2, hc2card]
    omega

theorem assign_collision_spec (g1 g2 : Grid) (e1 e2 : List Pos) (t : Pos)
    (rand : List (ℕ × ℕ × ℕ)) (d1 d2 : Pos → ℚ)
    (hP : PairInv g1 g2 t) (hN : NoDouble g1 g2 t) :
    NoMarkers (assign_collision_cells g1 g2 e1 e2 t rand d1 d2).1 ∧
      NoMarkers (assign_collision_cells g1 g2 e1 e2 t rand d1 d2).2 ∧
      NoDouble (assign_collision_cells g1 g2 e1 e2 t rand d1 d2).1
        (assign_collision_cells g1 g2 e1 e2 t rand d1 d2).2 t ∧
      crownCount (assign_collision_cells g1 g2 e1 e2 t rand d1 d2).1 +
        crownCount (assign_collision_cells g1 g2 e1 e2 t rand d1 d2).2 = phi g1 g2 ∧
      (assign_collision_cells g1 g2 e1 e2 t rand d1 d2).1.shape = g1.shape ∧
      (assign_collision_cells g1 g2 e1 e2 t rand d1 d2).2.shape = g2.shape := by
  unfold assign_collision_cells
  by_cases h : e1.length = 0 ∨ e2.length = 0
  · rw [if_pos h]
    exact assign_rest_spec g1 g2 t d1 d2 hP hN
  · rw [if_neg h]
    obtain ⟨hPr, hNr, hphir, hs1, hs2⟩ := growth_rounds_spec t e1 e2 rand g1 g2 hP hN
    obtain ⟨ha, hb, hcnd, hd, he, hf⟩ := assign_rest_spec
      (growth_rounds g1 g2 t e1 e2 rand).1 (growth_rounds g1 g2 t e1 e2 rand).2
      t d1 d2 hPr hNr
    exact ⟨ha, hb, hcnd, hd.trans hphir, he.trans hs1, hf.trans hs2⟩

/-- End-to-end specification of `resolve_collision`: starting from two
marker-free grids, the result has no markers, no doubly-claimed Crown cell,
and no more Crown cells in total than before; shapes are untouched. -/
theorem resolve_spec (g1 g2 : Grid) (t : Pos) (rand : List (ℕ × ℕ × ℕ))
    (d1 d2 : Pos → ℚ) (h1 : NoMarkers g1) (h2 : NoMarkers g2) :
    NoMarkers (resolve_collision g1 g2 t rand d1 d2).1 ∧
      NoMarkers (resolve_collision g1 g2 t rand d1 d2).2 ∧
      NoDouble (resolve_collision g1 g2 t rand d1 d2).1
        (resolve_collision g1 g2 t rand d1 d2).2 t ∧
      crownCount (resolve_collision g1 g2 t rand d1 d2).1 +
        crownCount (resolve_collision g1 g2 t rand d1 d2).2 ≤
        crownCount g1 + crownCount g2 ∧
      (resolve_collision g1 g2 t rand d1 d2).1.shape = g1.shape ∧
      (resolve_collision g1 g2 t rand d1 d2).2.shape = g2.shape := by
  unfold resolve_collision
  by_cases hc : (collidingCells2 g1 g2 t).length = 0
  · rw [if_pos hc]
    refine ⟨h1, h2, ?_, le_refl _, rfl, rfl⟩
    intro p hp1 hcrown hp2 hcontra
    have hmem : p + t ∈ collidingCells2 g1 g2 t :=
      mem_collidingCells2.mpr ⟨by simpa using hp1, by simpa using hcrown, hp2, hcontra⟩
    rw [List.length_eq_zero] at hc
    rw [hc] at hmem
    exact absurd hmem (List.not_mem_nil _)
  · rw [if_neg hc]
    obtain ⟨hPm, hNm, hphim⟩ := mark_spec g1 g2 t h1 h2
    obtain ⟨ha, hb, hcnd, hd, he, hf⟩ := assign_collision_spec
      (writeCells g1 (collidingCells1 g1 g2 t) CellType.collision.value)
      (writeCells g2 (collidingCells2 g1 g2 t) CellType.collision.value)
      (get_collision_edge_cells g1 (collidingCells1 g1 g2 t))
      (get_collision_edge_cells g2 (collidingCells2 g1 g2 t))
      t rand d1 d2 hPm hNm
    refine ⟨ha, hb, hcnd, ?_, he.trans (writeCells_shape _ _ _),
      hf.trans (writeCells_shape _ _ _)⟩
    rw [hd]
    exact hphim

theorem resolve_pair_preserves (trees : List (Pos × Grid)) (st : PairStep)
    (h : ∀ tr ∈ trees, NoMarkers tr.2) :
    ∀ tr ∈ resolve_pair trees st, NoMarkers tr.2 := by
  unfold resolve_pair
  split
  case _ t1 t2 heq1 heq2 =>
    intro tr htr
    have hm1 : NoMarkers t1.2 := h t1 (List.getElem?_mem heq1)
    have hm2 : NoMarkers t2.2 := h t2 (List.getElem?_mem heq2)
    obtain ⟨hr1, hr2, -, -, -, -⟩ :=
      resolve_spec t1.2 t2.2 (t1.1 - t2.1) st.rand st.d1 st.d2 hm1 hm2
    rcases List.mem_or_eq_of_mem_set htr with htr' | rfl
    · rcases List.mem_or_eq_of_mem_set htr' with htr'' | rfl
      · exact h tr htr''
      · exact hr1
    · exact hr2
  case _ =>
    exact h

theorem evaluate_pass_cons (trees : List (Pos × Grid)) (st : PairStep)
    (rest : List PairStep) :
    evaluate_pass trees (st :: rest) = evaluate_pass (resolve_pair trees st) rest := rfl

/-! ## Witness fixtures: small concrete grids used to instantiate theorems -/

/-- 2×1×1 grid with Crown at both cells. -/
def wg1 : Grid := ⟨(2, 1, 1), fun p => if p = (0, 0, 0) ∨ p = (1, 0, 0) then 2 else 0⟩

/-- 2×1×1 grid with Crown at the origin only. -/
def wg2 : Grid := ⟨(2, 1, 1), fun p => if p = (0, 0, 0) then 2 else 0⟩

/-- Zero translation. -/
def wt : Pos := (0, 0, 0)

/-- Constant distance array. -/
def wd : Pos → ℚ := fun _ => 0

/-! ## Claim theorems for collision resolution -/

/-- C1: after `resolve_collision` completes (boundary growth plus fallback),
no voxel is Crown in both grids: every cell holding Crown in tree 1's grid
has its translated partner (when in bounds) not Crown in tree 2's grid; and
in the fallback, a contested cell goes to the grid with the strictly smaller
distance, ties awarded to tree 1 (whose grid keeps the cell when `d1 ≤ d2`),
the other grid's cell being cleared. -/
theorem resolve_collision_no_double_crown
    (g1 g2 : Grid) (t : Pos) (rand : List (ℕ × ℕ × ℕ)) (d1 d2 : Pos → ℚ)
    (h1 : NoMarkers g1) (h2 : NoMarkers g2) :
    (∀ p : Pos, inBounds g1.shape p →
      (resolve_collision g1 g2 t rand d1 d2).1.data p = CellType.crown.value →
      inBounds g2.shape (p + t) →
      (resolve_collision g1 g2 t rand d1 d2).2.data (p + t) ≠ CellType.crown.value) ∧
    (∀ (ga gb : Grid) (da db : Pos → ℚ) (p : Pos),
      p ∈ argwhere ga CellType.collision.value →
      (da p ≤ db (p + t) →
        (assign_rest_of_collision_cells ga gb t da db).1.data p = CellType.crown.value ∧
          (assign_rest_of_collision_cells ga gb t da db).2.data (p + t) =
            CellType.no_tree.value) ∧
      (db (p + t) < da p →
        (assign_rest_of_collision_cells ga gb t da db).1.data p = CellType.no_tree.value ∧
          (assign_rest_of_collision_cells ga gb t da db).2.data (p + t) =
            CellType.crown.value)) := by
  constructor
  · obtain ⟨-, -, hnd, -, hs1, hs2⟩ := resolve_spec g1 g2 t rand d1 d2 h1 h2
    intro p hp1 hcrown hp2
    exact hnd p (by rw [hs1]; exact hp1) hcrown (by rw [hs2]; exact hp2)
  · intro ga gb da db p hp
    exact assign_rest_rule ga gb t da db p hp

theorem resolve_collision_no_double_crown_witness :
    NoMarkers wg1 ∧ NoMarkers wg2 ∧
      (resolve_collision wg1 wg2 wt [] wd wd).2.data ((0, 0, 0) + wt) ≠
        CellType.crown.value :=
  ⟨by decide, by decide,
    (resolve_collision_no_double_crown wg1 wg2 wt [] wd wd (by decide) (by decide)).1
      (0, 0, 0) (by decide) (by decide) (by decide)⟩

/-- C3: after `resolve_collision` returns (including the fallback), neither
grid contains the `CollisionMarker` value; consequently a full evaluation
pass over any list of candidate pairs leaves no grid with a marker. -/
theorem resolve_collision_clears_markers :
    (∀ (g1 g2 : Grid) (t : Pos) (rand : List (ℕ × ℕ × ℕ)) (d1 d2 : Pos → ℚ),
      NoMarkers g1 → NoMarkers g2 →
      NoMarkers (resolve_collision g1 g2 t rand d1 d2).1 ∧
        NoMarkers (resolve_collision g1 g2 t rand d1 d2).2) ∧
    (∀ (trees : List (Pos × Grid)) (steps : List PairStep),
      (∀ tr ∈ trees, NoMarkers tr.2) →
      ∀ tr ∈ evaluate_pass trees steps, NoMarkers tr.2) := by
  constructor
  · intro g1 g2 t rand d1 d2 h1 h2
    obtain ⟨ha, hb, -, -, -, -⟩ := resolve_spec g1 g2 t rand d1 d2 h1 h2
    exact ⟨ha, hb⟩
  · intro trees steps
    induction steps generalizing trees with
    | nil => exact fun h => h
    | cons st rest ih =>
        intro h
        rw [evaluate_pass_cons]
        exact ih _ (resolve_pair_preserves trees st h)

theorem resolve_collision_clears_markers_witness :
    NoMarkers wg1 ∧ NoMarkers wg2 ∧
      NoMarkers (resolve_collision wg1 wg2 wt [] wd wd).1 ∧
      NoMarkers (resolve_collision wg1 wg2 wt [] wd wd).2 :=
  ⟨by decide, by decide,
    resolve_collision_clears_markers.1 wg1 wg2 wt [] wd wd (by decide) (by decide)⟩

/-- C4: the total number of Crown cells in the two grids never increases
under `resolve_collision`: each contested cell ends as Crown in at most one
grid or as Empty, and no Crown cell is duplicated into both grids. -/
theorem resolve_collision_crown_count_le
    (g1 g2 : Grid) (t : Pos) (rand : List (ℕ × ℕ × ℕ)) (d1 d2 : Pos → ℚ)
    (h1 : NoMarkers g1) (h2 : NoMarkers g2) :
    crownCount (resolve_collision g1 g2 t rand d1 d2).1 +
      crownCount (resolve_collision g1 g2 t rand d1 d2).2 ≤
      crownCount g1 + crownCount g2 :=
  (resolve_spec g1 g2 t rand d1 d2 h1 h2).2.2.2.1

theorem resolve_collision_crown_count_le_witness :
    NoMarkers wg1 ∧ NoMarkers wg2 ∧
      crownCount (resolve_collision wg1 wg2 wt [] wd wd).1 +
        crownCount (resolve_collision wg1 wg2 wt [] wd wd).2 ≤
        crownCount wg1 + crownCount wg2 :=
  ⟨by decide, by decide,
    resolve_collision_crown_count_le wg1 wg2 wt [] wd wd (by decide) (by decide)⟩

/-- C5: if the two trees' translated Crown-cell sets do not intersect (no
cell is Crown in both grids after translation and clipping), then
`resolve_collision` performs no mutation: both grids come back unchanged. -/
theorem resolve_collision_no_overlap_id
    (g1 g2 : Grid) (t : Pos) (rand : List (ℕ × ℕ × ℕ)) (d1 d2 : Pos → ℚ)
    (h : ∀ p ∈ allPositions g1.shape, g1.data p = CellType.crown.value →
      inBounds g2.shape (p + t) → g2.data (p + t) ≠ CellType.crown.value) :
    resolve_collision g1 g2 t rand d1 d2 = (g1, g2) := by
  have hc : collidingCells2 g1 g2 t = [] := by
    rw [List.eq_nil_iff_forall_not_mem]
    intro q hq
    obtain ⟨hb1, hv1, hb2, hv2⟩ := mem_collidingCells2.mp hq
    exact h (q - t) (mem_allPositions.mpr hb1) hv1 (by simpa using hb2)
      (by simpa using hv2)
  unfold resolve_collision
  rw [if_pos (by rw [hc]; rfl)]

theorem resolve_collision_no_overlap_id_witness :
    (∀ p ∈ allPositions wg1.shape, wg1.data p = CellType.crown.value →
      inBounds wg2.shape (p + (1, 0, 0)) →
      wg2.data (p + (1, 0, 0)) ≠ CellType.crown.value) ∧
    resolve_collision wg1 wg2 (1, 0, 0) [] wd wd = (wg1, wg2) :=
  ⟨by decide, resolve_collision_no_overlap_id wg1 wg2 (1, 0, 0) [] wd wd (by decide)⟩

/-! ## Index accesses performed during collision resolution (claim C6)

Each function below replays the corresponding source function and collects
every grid index it reads or writes (tagged `true` for tree 1's grid, `false`
for tree 2's): the boolean-mask reads over whole grids, the gather reads of
the distance arrays (which share the grids' shape), and all fancy-index
writes.  Write index sets that are subsets of listed reads (the
closer/farther splits of the fallback, the conflicted cells of a growth
round) are covered by the listed sets. -/

def growth_half_accesses (gA gB : Grid) (τ : Pos) (edges : List Pos) (r idx : ℕ) :
    List Pos × List Pos :=
  let sphere_cells := get_cells_for_sphere r
  let collision_edge_cell := choose edges idx
  let mask := trim_mask gB (sphere_cells.map fun p => p + (collision_edge_cell + τ))
  let mask := trim_mask gA (mask.map fun p => p - τ)
  let conflicted := mask.filter fun p => decide (gA.data p = CellType.collision.value)
  (mask ++ conflicted, conflicted.map fun p => p + τ)

def growth_round_accesses (g1 g2 : Grid) (t : Pos) (e1 e2 : List Pos)
    (rc : ℕ × ℕ × ℕ) : List (Bool × Pos) :=
  let a1 := growth_half_accesses g1 g2 t e1 rc.1 rc.2.1
  let h1 := growth_half g1 g2 t e1 rc.1 rc.2.1
  let a2 := growth_half_accesses h1.2 h1.1 (-t) e2 rc.1 rc.2.2
  (a1.1.map fun p => (true, p)) ++ (a1.2.map fun p => (false, p)) ++
    (a2.1.map fun p => (false, p)) ++ (a2.2.map fun p => (true, p))

def growth_rounds_accesses (g1 g2 : Grid) (t : Pos) (e1 e2 : List Pos) :
    List (ℕ × ℕ × ℕ) → List (Bool × Pos)
  | [] => []
  | rc :: rest =>
      growth_round_accesses g1 g2 t e1 e2 rc ++
        growth_rounds_accesses (growth_round g1 g2 t e1 e2 rc).1
          (growth_round g1 g2 t e1 e2 rc).2 t e1 e2 rest

def assign_rest_accesses (g1 g2 : Grid) (t : Pos) : List (Bool × Pos) :=
  ((allPositions g1.shape).map fun p => (true, p)) ++
    ((allPositions g2.shape).map fun q => (false, q)) ++
    ((argwhere g1 CellType.collision.value).map fun p => (true, p)) ++
    (((argwhere g1 CellType.collision.value).map fun p => p + t).map fun q => (false, q))

def assign_collision_accesses (g1 g2 : Grid) (e1 e2 : List Pos) (t : Pos)
    (rand : List (ℕ × ℕ × ℕ)) : List (Bool × Pos) :=
  if e1.length = 0 ∨ e2.length = 0 then assign_rest_accesses g1 g2 t
  else
    growth_rounds_accesses g1 g2 t e1 e2 rand ++
      assign_rest_accesses (growth_rounds g1 g2 t e1 e2 rand).1
        (growth_rounds g1 g2 t e1 e2 rand).2 t

def resolve_collision_accesses (g1 g2 : Grid) (t : Pos) (rand : List (ℕ × ℕ × ℕ)) :
    List (Bool × Pos) :=
  let tree2_collision_cells := collidingCells2 g1 g2 t
  let tree1_collision_cells := collidingCells1 g1 g2 t
  let base :=
    ((allPositions g1.shape).map fun p => (true, p)) ++
      ((trim_mask g2 ((argwhere g1 CellType.crown.value).map fun p => p + t)).map
        fun q => (false, q))
  if tree2_collision_cells.length = 0 then base
  else
    base ++
      ((trim_mask g1 (neighborsOf tree1_collision_cells)).map fun p => (true, p)) ++
      ((trim_mask g2 (neighborsOf tree2_collision_cells)).map fun q => (false, q)) ++
      (tree1_collision_cells.map fun p => (true, p)) ++
      (tree2_collision_cells.map fun q => (false, q)) ++
      assign_collision_accesses
        (writeCells g1 tree1_collision_cells CellType.collision.value)
        (writeCells g2 tree2_collision_cells CellType.collision.value)
        (get_collision_edge_cells g1 tree1_collision_cells)
        (get_collision_edge_cells g2 tree2_collision_cells) t rand

/-- All listed accesses hit valid indices of their grid. -/
def AccessesInBounds (s1 s2 : ℕ × ℕ × ℕ) (acc : List (Bool × Pos)) : Prop :=
  ∀ a ∈ acc, (a.1 = true → inBounds s1 a.2) ∧ (a.1 = false → inBounds s2 a.2)

theorem AccessesInBounds.append {s1 s2 : ℕ × ℕ × ℕ} {l1 l2 : List (Bool × Pos)}
    (h1 : AccessesInBounds s1 s2 l1) (h2 : AccessesInBounds s1 s2 l2) :
    AccessesInBounds s1 s2 (l1 ++ l2) := by
  intro a ha
  rcases List.mem_append.mp ha with h | h
  · exact h1 a h
  · exact h2 a h

theorem accesses_of_map_true {s1 s2 : ℕ × ℕ × ℕ} {l : List Pos}
    (h : ∀ p ∈ l, inBounds s1 p) :
    AccessesInBounds s1 s2 (l.map fun p => (true, p)) := by
  rintro a ha
  obtain ⟨p, hp, rfl⟩ := List.mem_map.mp ha
  exact ⟨fun _ => h p hp, fun hfalse => absurd hfalse (by simp)⟩

theorem accesses_of_map_false {s1 s2 : ℕ × ℕ × ℕ} {l : List Pos}
    (h : ∀ p ∈ l, inBounds s2 p) :
    AccessesInBounds s1 s2 (l.map fun p => (false, p)) := by
  rintro a ha
  obtain ⟨p, hp, rfl⟩ := List.mem_map.mp ha
  exact ⟨fun htrue => absurd htrue (by simp), fun _ => h p hp⟩

theorem growth_half_accesses_bounds (gA gB : Grid) (τ : Pos) (edges : List Pos)
    (r idx : ℕ) :
    (∀ p ∈ (growth_half_accesses gA gB τ edges r idx).1, inBounds gA.shape p) ∧
      (∀ q ∈ (growth_half_accesses gA gB τ edges r idx).2, inBounds gB.shape q) := by
  unfold growth_half_accesses
  constructor
  · intro p hp
    rcases List.mem_append.mp hp with h | h
    · exact (mem_trim_mask.mp h).2
    · exact (mem_trim_mask.mp (List.mem_filter.mp h).1).2
  · intro q hq
    obtain ⟨p, hp, rfl⟩ := List.mem_map.mp hq
    have hpm := (mem_trim_mask.mp (List.mem_filter.mp hp).1).1
    obtain ⟨p', hp', rfl⟩ := List.mem_map.mp hpm
    have := (mem_trim_mask.mp hp').2
    simpa using this

theorem growth_round_accesses_eq (g1 g2 : Grid) (t : Pos) (e1 e2 : List Pos)
    (rc : ℕ × ℕ × ℕ) :
    growth_round_accesses g1 g2 t e1 e2 rc =
      ((growth_half_accesses g1 g2 t e1 rc.1 rc.2.1).1.map fun p => (true, p)) ++
        ((growth_half_accesses g1 g2 t e1 rc.1 rc.2.1).2.map fun p => (false, p)) ++
        ((growth_half_accesses (growth_half g1 g2 t e1 rc.1 rc.2.1).2
            (growth_half g1 g2 t e1 rc.1 rc.2.1).1 (-t) e2 rc.1 rc.2.2).1.map
          fun p => (false, p)) ++
        ((growth_half_accesses (growth_half g1 g2 t e1 rc.1 rc.2.1).2
            (growth_half g1 g2 t e1 rc.1 rc.2.1).1 (-t) e2 rc.1 rc.2.2).2.map
          fun p => (true, p)) := rfl

theorem growth_round_accesses_bounds (g1 g2 : Grid) (t : Pos) (e1 e2 : List Pos)
    (rc : ℕ × ℕ × ℕ) :
    AccessesInBounds g1.shape g2.shape (growth_round_accesses g1 g2 t e1 e2 rc) := by
  rw [growth_round_accesses_eq]
  obtain ⟨ha1, ha2⟩ := growth_half_accesses_bounds g1 g2 t e1 rc.1 rc.2.1
  obtain ⟨hb1, hb2⟩ := growth_half_accesses_bounds
    (growth_half g1 g2 t e1 rc.1 rc.2.1).2 (growth_half g1 g2 t e1 rc.1 rc.2.1).1
    (-t) e2 rc.1 rc.2.2
  refine (((accesses_of_map_true ha1).append (accesses_of_map_false ha2)).append
    (accesses_of_map_false ?_)).append (accesses_of_map_true ?_)
  · intro p hp
    have := hb1 p hp
    rwa [growth_half_shape2] at this
  · intro q hq
    have := hb2 q hq
    rwa [growth_half_shape1] at this

theorem growth_rounds_accesses_cons (g1 g2 : Grid) (t : Pos) (e1 e2 : List Pos)
    (rc : ℕ × ℕ × ℕ) (rest : List (ℕ × ℕ × ℕ)) :
    growth_rounds_accesses g1 g2 t e1 e2 (rc :: rest) =
      growth_round_accesses g1 g2 t e1 e2 rc ++
        growth_rounds_accesses (growth_round g1 g2 t e1 e2 rc).1
          (growth_round g1 g2 t e1 e2 rc).2 t e1 e2 rest := by
  simp only [growth_rounds_accesses]

theorem growth_rounds_accesses_bounds (t : Pos) (e1 e2 : List Pos)
    (rand : List (ℕ × ℕ × ℕ)) :
    ∀ g1 g2 : Grid,
      AccessesInBounds g1.shape g2.shape (growth_rounds_accesses g1 g2 t e1 e2 rand) := by
  induction rand with
  | nil =>
      intro g1 g2 a ha
      simp only [growth_rounds_accesses] at ha
      exact absurd ha (List.not_mem_nil a)
  | cons rc rest ih =>
      intro g1 g2
      rw [growth_rounds_accesses_cons]
      refine (growth_round_accesses_bounds g1 g2 t e1 e2 rc).append ?_
      have := ih (growth_round g1 g2 t e1 e2 rc).1 (growth_round g1 g2 t e1 e2 rc).2
      rwa [growth_round_shape1, growth_round_shape2] at this

theorem assign_rest_accesses_bounds (g1 g2 : Grid) (t : Pos)
    (hP : PairInv g1 g2 t) :
    AccessesInBounds g1.shape g2.shape (assign_rest_accesses g1 g2 t) := by
  unfold assign_rest_accesses
  refine (((accesses_of_map_true ?_).append (accesses_of_map_false ?_)).append
    (accesses_of_map_true ?_)).append (accesses_of_map_false ?_)
  · exact fun p hp => mem_allPositions.mp hp
  · exact fun q hq => mem_allPositions.mp hq
  · exact fun p hp => (mem_argwhere.mp hp).1
  · intro q hq
    obtain ⟨p, hp, rfl⟩ := List.mem_map.mp hq
    exact ((hP p).mp (mem_argwhere.mp hp)).1

theorem assign_collision_accesses_bounds (g1 g2 : Grid) (e1 e2 : List Pos) (t : Pos)
    (rand : List (ℕ × ℕ × ℕ)) (hP : PairInv g1 g2 t) (hN : NoDouble g1 g2 t) :
    AccessesInBounds g1.shape g2.shape (assign_collision_accesses g1 g2 e1 e2 t rand) := by
  unfold assign_collision_accesses
  by_cases h : e1.length = 0 ∨ e2.length = 0
  · rw [if_pos h]
    exact assign_rest_accesses_bounds g1 g2 t hP
  · rw [if_neg h]
    obtain ⟨hPr, hNr, -, hs1, hs2⟩ := growth_rounds_spec t e1 e2 rand g1 g2 hP hN
    refine (growth_rounds_accesses_bounds t e1 e2 rand g1 g2).append ?_
    have := assign_rest_accesses_bounds (growth_rounds g1 g2 t e1 e2 rand).1
      (growth_rounds g1 g2 t e1 e2 rand).2 t hPr
    rwa [hs1, hs2] at this

/-- C6: during collision resolution every grid access stays within the
addressed grid's index bounds: for every pair of marker-free grids and every
random choice, every index read or written by `resolve_collision`,
`assign_collision_cells` (the growth rounds) or
`assign_rest_of_collision_cells` (the fallback, including the gather at
`tree1_collision_cells + translation` into tree 2's distance array and the
corresponding writes) lies in `[0, shape)` on every axis. -/
theorem resolve_collision_accesses_in_bounds (g1 g2 : Grid) (t : Pos)
    (rand : List (ℕ × ℕ × ℕ)) (h1 : NoMarkers g1) (h2 : NoMarkers g2) :
    ∀ a ∈ resolve_collision_accesses g1 g2 t rand,
      (a.1 = true → inBounds g1.shape a.2) ∧ (a.1 = false → inBounds g2.shape a.2) := by
  have hbase : AccessesInBounds g1.shape g2.shape
      (((allPositions g1.shape).map fun p => (true, p)) ++
        ((trim_mask g2 ((argwhere g1 CellType.crown.value).map fun p => p + t)).map
          fun q => (false, q))) := by
    refine (accesses_of_map_true ?_).append (accesses_of_map_false ?_)
    · exact fun p hp => mem_allPositions.mp hp
    · exact fun q hq => (mem_trim_mask.mp hq).2
  unfold resolve_collision_accesses
  by_cases hc : (collidingCells2 g1 g2 t).length = 0
  · rw [if_pos hc]
    exact hbase
  · rw [if_neg hc]
    obtain ⟨hPm, hNm, -⟩ := mark_spec g1 g2 t h1 h2
    have hacc := assign_collision_accesses_bounds
      (writeCells g1 (collidingCells1 g1 g2 t) CellType.collision.value)
      (writeCells g2 (collidingCells2 g1 g2 t) CellType.collision.value)
      (get_collision_edge_cells g1 (collidingCells1 g1 g2 t))
      (get_collision_edge_cells g2 (collidingCells2 g1 g2 t)) t rand hPm hNm
    rw [writeCells_shape, writeCells_shape] at hacc
    refine ((((hbase.append (accesses_of_map_true ?_)).append
      (accesses_of_map_false ?_)).append (accesses_of_map_true ?_)).append
      (accesses_of_map_false ?_)).append hacc
    · exact fun p hp => (mem_trim_mask.mp hp).2
    · exact fun q hq => (mem_trim_mask.mp hq).2
    · exact fun p hp => (mem_collidingCells1.mp hp).1
    · exact fun q hq => (mem_collidingCells2.mp hq).2.2.1

theorem resolve_collision_accesses_in_bounds_witness :
    NoMarkers wg1 ∧ NoMarkers wg2 ∧
      ∀ a ∈ resolve_collision_accesses wg1 wg2 wt [(1, 0, 1)],
        (a.1 = true → inBounds wg1.shape a.2) ∧ (a.1 = false → inBounds wg2.shape a.2) :=
  ⟨by decide, by decide,
    resolve_collision_accesses_in_bounds wg1 wg2 wt [(1, 0, 1)] (by decide) (by decide)⟩

/-! ## Claims C8, C9, C10 -/

/-- C10: the "non-owned space" mask
`(tree_grid != stem) | (tree_grid != crown)` built by
`assign_rest_of_collision_cells` evaluates to true at every cell, whatever
`CellType` value the cell holds (no value equals both `stem` and `crown`), so
the distance transform it feeds sees no background cell at all rather than
the cells that are neither Stem nor Crown. -/
theorem non_owned_mask_always_true : ∀ (g : Grid) (p : Pos), non_owned_mask g p = true := by
  intro g p
  unfold non_owned_mask
  rcases eq_or_ne (g.data p) CellType.stem.value with h | h
  · rw [h]
    decide
  · rw [decide_eq_true h, Bool.true_or]

/-- C8 (amended): every cell returned by `get_collision_edge_cells` holds
*Crown* in the grid at detection time (which happens before the contested
cells are marked), and is a 6-connected neighbor of some listed collision
cell — i.e. the code returns the Crown neighbors of contested cells, not
contested cells with Crown neighbors. -/
theorem get_collision_edge_cells_spec (g : Grid) (cc : List Pos) (c : Pos)
    (h : c ∈ get_collision_edge_cells g cc) :
    inBounds g.shape c ∧ g.data c = CellType.crown.value ∧
      ∃ q ∈ cc, ∃ o ∈ neighbor_offsets, c = q + o := by
  unfold get_collision_edge_cells at h
  rw [List.mem_filter] at h
  obtain ⟨hm, hv⟩ := h
  rw [mem_trim_mask] at hm
  obtain ⟨hn, hb⟩ := hm
  unfold neighborsOf at hn
  rw [List.mem_flatMap] at hn
  obtain ⟨q, hq, hno⟩ := hn
  rw [List.mem_map] at hno
  obtain ⟨o, ho, rfl⟩ := hno
  exact ⟨hb, by simpa using hv, q, hq, o, ho, rfl⟩

theorem get_collision_edge_cells_spec_witness :
    (1, 0, 0) ∈ get_collision_edge_cells wg1 [(0, 0, 0)] ∧
      (inBounds wg1.shape (1, 0, 0) ∧ wg1.data (1, 0, 0) = CellType.crown.value ∧
        ∃ q ∈ ([(0, 0, 0)] : List Pos), ∃ o ∈ neighbor_offsets, ((1 : ℤ), (0 : ℤ), (0 : ℤ)) = q + o) :=
  ⟨by decide, get_collision_edge_cells_spec wg1 [(0, 0, 0)] (1, 0, 0) (by decide)⟩

/-- C8 counterexample: for the colliding pair `(wg1, wg2)` with zero
translation, edge-cell detection for tree 1 returns cell `(1,0,0)`, but in
the marked grid that the growth rounds then operate on this cell holds
Crown, not `CollisionMarker` (the claim's "edge cell = a CollisionMarker
cell with a Crown neighbor" describes the dual of what the code computes). -/
theorem edge_cells_not_marker_cex :
    (1, 0, 0) ∈ get_collision_edge_cells wg1 (collidingCells1 wg1 wg2 wt) ∧
      (writeCells wg1 (collidingCells1 wg1 wg2 wt) CellType.collision.value).data (1, 0, 0) ≠
        CellType.collision.value := by
  decide

/-- The inclusion test of `add_ellipsoid_tree`, line 185:
`(i/half_width)**2 + (j/half_width)**2 + (k/half_height)**2 <= 1`. -/
def ellipsoid_mask (hw hh i j k : ℤ) : Bool :=
  decide (((i : ℚ) / (hw : ℚ)) ^ 2 + ((j : ℚ) / (hw : ℚ)) ^ 2 +
    ((k : ℚ) / (hh : ℚ)) ^ 2 ≤ 1)

/-- The inclusion test of `add_spreading_tree`, line 240:
`... <= 1 & (k >= 0)`.  Python's precedence parses the right-hand side as
`1 & (k >= 0)`, which numpy evaluates to `1` where `k ≥ 0` and `0`
elsewhere; the comparison is then elementwise against that 0/1 array. -/
def spreading_mask (hw hh i j k : ℤ) : Bool :=
  decide (((i : ℚ) / (hw : ℚ)) ^ 2 + ((j : ℚ) / (hw : ℚ)) ^ 2 +
    ((k : ℚ) / (hh : ℚ)) ^ 2 ≤ (if 0 ≤ k then (1 : ℚ) else 0))

/-- C9 (amended): for positive half-dimensions, the literal mask of
`add_spreading_tree` holds iff the ellipsoid test holds *and* `k ≥ 0`: the
bitwise-`&`-with-comparison expression is not a no-op and the crown filled is
the upper half of the ellipsoid, not the full ellipsoid. -/
theorem spreading_mask_upper_half (hw hh i j k : ℤ) (h1 : 0 < hw) (h2 : 0 < hh) :
    spreading_mask hw hh i j k = true ↔
      (((i : ℚ) / (hw : ℚ)) ^ 2 + ((j : ℚ) / (hw : ℚ)) ^ 2 +
        ((k : ℚ) / (hh : ℚ)) ^ 2 ≤ 1 ∧ 0 ≤ k) := by
  unfold spreading_mask
  rw [decide_eq_true_eq]
  by_cases hk : 0 ≤ k
  · rw [if_pos hk]
    exact ⟨fun h => ⟨h, hk⟩, fun h => h.1⟩
  · rw [if_neg hk]
    constructor
    · intro h
      exfalso
      have hs : ((k : ℚ) / (hh : ℚ)) ^ 2 ≤ 0 := by
        nlinarith [sq_nonneg ((i : ℚ) / (hw : ℚ)), sq_nonneg ((j : ℚ) / (hw : ℚ))]
      have hz : (k : ℚ) / (hh : ℚ) = 0 := by
        nlinarith [sq_nonneg ((k : ℚ) / (hh : ℚ))]
      rcases div_eq_zero_iff.mp hz with hz2 | hz2
      · have : k = 0 := by exact_mod_cast hz2
        omega
      · have : hh = 0 := by exact_mod_cast hz2
        omega
    · rintro ⟨-, hk0⟩
      exact absurd hk0 hk

theorem spreading_mask_upper_half_witness :
    (0 : ℤ) < 2 ∧
      (spreading_mask 2 2 1 0 1 = true ↔
        (((1 : ℤ) : ℚ) / ((2 : ℤ) : ℚ)) ^ 2 + (((0 : ℤ) : ℚ) / ((2 : ℤ) : ℚ)) ^ 2 +
          (((1 : ℤ) : ℚ) / ((2 : ℤ) : ℚ)) ^ 2 ≤ 1 ∧ (0 : ℤ) ≤ 1) :=
  ⟨by decide, spreading_mask_upper_half 2 2 1 0 1 (by decide) (by decide)⟩

/-- C9 counterexample: at `(i,j,k) = (0,0,-1)` with half-width =
half-height = 2, the full-ellipsoid test of `add_ellipsoid_tree` accepts the
cell but the literal spreading mask rejects it — the spreading mask is not
"identical to add_ellipsoid_tree's inclusion test". -/
theorem spreading_mask_not_full_ellipsoid_cex :
    spreading_mask 2 2 0 0 (-1) = false ∧ ellipsoid_mask 2 2 0 0 (-1) = true := by
  constructor
  · unfold spreading_mask
    rw [decide_eq_false_iff_not]
    intro h
    rw [if_neg (by omega)] at h
    norm_num at h
  · unfold ellipsoid_mask
    rw [decide_eq_true_eq]
    norm_num

/-! ## GridBuilder: `add_tree` and the shape fills (claim C7)

The per-shape fill routines are modelled as the list of index triples they
assign, fed through numpy's integer-array indexing semantics: an in-range
index is used as is, a negative index at least `-dim` wraps around, and
anything else raises `IndexError`.  `add_tree` returns `none` when the
execution raises (a negative `np.zeros` dimension or an out-of-range write);
the source performs no validation of the configuration and the project
defines no `ConfigurationError` anywhere. -/

/-- Python `int(...)` on an exact rational: truncation toward zero. -/
def pyint (q : ℚ) : ℤ := q.num.div (q.den : ℤ)

/-- `self.cube_size` (default 0.5). -/
def cube_size : ℚ := 1 / 2

inductive CrownType : Type
  | ellipsoid
  | columnar
  | spreading
deriving DecidableEq

structure TreeConfig : Type where
  stem_height : ℚ
  stem_diameter : ℚ
  crown_width : ℚ
  crown_height : ℚ
  crown_offset : ℚ
  crown_type : CrownType

/-- The index triples assigned by `VoxelGrid.add_stem`. -/
def add_stem_writes (shape : ℕ × ℕ × ℕ) (stem_diameter stem_height : ℚ) : List Pos :=
  let stem_radius := pyint (stem_diameter / 2 / cube_size)
  let stem_height_range := intRange 0 (pyint (stem_height / cube_size))
  let stem_diameter_range :=
    intRange (-(pyint (stem_diameter / cube_size))) (pyint (stem_diameter / cube_size))
  stem_height_range.flatMap fun i =>
    stem_diameter_range.flatMap fun j =>
      stem_diameter_range.filterMap fun k =>
        if j ^ 2 + k ^ 2 ≤ stem_radius ^ 2 then
          some (j + ((shape.1 / 2 : ℕ) : ℤ), k + ((shape.2.1 / 2 : ℕ) : ℤ), i)
        else none

/-- The index triples assigned by `VoxelGrid.add_ellipsoid_tree`. -/
def add_ellipsoid_writes (shape : ℕ × ℕ × ℕ) (cfg : TreeConfig) : List Pos :=
  let half_width := pyint (cfg.crown_width / 2 / cube_size)
  let half_height := pyint (cfg.crown_height / 2 / cube_size)
  let crown_range_xy := intRange (-half_width) (half_width + 1)
  let crown_range_z := intRange (-half_height) (half_height + 1)
  crown_range_xy.flatMap fun i =>
    crown_range_xy.flatMap fun j =>
      crown_range_z.filterMap fun k =>
        if ellipsoid_mask half_width half_height i j k then
          some (i + ((shape.1 / 2 : ℕ) : ℤ), j + ((shape.2.1 / 2 : ℕ) : ℤ),
            k + pyint ((cfg.stem_height - cfg.crown_offset) / cube_size + (half_height : ℚ)))
        else none

/-- The index triples assigned by `VoxelGrid.add_columnar_tree`. -/
def add_columnar_writes (shape : ℕ × ℕ × ℕ) (cfg : TreeConfig) : List Pos :=
  let crown_radius := pyint (cfg.crown_width / 2 / cube_size)
  let crown_height_range := intRange 0 (pyint (cfg.crown_height / cube_size))
  let crown_range := intRange (-crown_radius) (crown_radius + 1)
  crown_height_range.flatMap fun i =>
    crown_range.flatMap fun j =>
      crown_range.filterMap fun k =>
        if j ^ 2 + k ^ 2 ≤ crown_radius ^ 2 then
          some (j + ((shape.1 / 2 : ℕ) : ℤ), k + ((shape.2.1 / 2 : ℕ) : ℤ),
            i + pyint ((cfg.stem_height - cfg.crown_offset) / cube_size))
        else none

/-- The index triples assigned by `VoxelGrid.add_spreading_tree` (with its
literal mask, see `spreading_mask`). -/
def add_spreading_writes (shape : ℕ × ℕ × ℕ) (cfg : TreeConfig) : List Pos :=
  let half_width := pyint (cfg.crown_width / 2 / cube_size)
  let half_height := pyint (cfg.crown_height / 2 / cube_size)
  let crown_range_xy := intRange (-half_width) (half_width + 1)
  let crown_range_z := intRange (-half_height) (half_height + 1)
  crown_range_xy.flatMap fun i =>
    crown_range_xy.flatMap fun j =>
      crown_range_z.filterMap fun k =>
        if spreading_mask half_width half_height i j k then
          some (i + ((shape.1 / 2 : ℕ) : ℤ), j + ((shape.2.1 / 2 : ℕ) : ℤ),
            k + pyint ((cfg.stem_height - cfg.crown_offset) / cube_size))
        else none

/-- The `crown_type_to_function` dispatch of `add_tree`. -/
def crown_writes (shape : ℕ × ℕ × ℕ) (cfg : TreeConfig) : List Pos :=
  match cfg.crown_type with
  | .ellipsoid => add_ellipsoid_writes shape cfg
  | .columnar => add_columnar_writes shape cfg
  | .spreading => add_spreading_writes shape cfg

/-- One entry of `self.trees`: anchor position (in grid units),
configuration identifier, and the tree's grid. -/
structure PlacedTree : Type where
  pos : Pos
  config_id : ℕ
  grid : Grid

/-- numpy integer-array indexing on one axis: in-range indices stand,
negative indices at least `-dim` wrap, anything else is `IndexError`. -/
def npIndex (dim : ℕ) (i : ℤ) : Option ℤ :=
  if 0 ≤ i ∧ i < (dim : ℤ) then some i
  else if -(dim : ℤ) ≤ i ∧ i < 0 then some (i + (dim : ℤ))
  else none

def npIndex3 (shape : ℕ × ℕ × ℕ) (p : Pos) : Option Pos :=
  match npIndex shape.1 p.1, npIndex shape.2.1 p.2.1, npIndex shape.2.2 p.2.2 with
  | some a, some b, some c => some (a, b, c)
  | _, _, _ => none

/-- `VoxelGrid.add_tree`: allocate the grid, fill stem then crown, append
the new tree.  `none` models a raised exception (negative `np.zeros`
dimension, or an out-of-range index in a fill); the configuration itself is
never validated. -/
def add_tree (trees : List PlacedTree) (position : ℚ × ℚ × ℚ) (cid : ℕ)
    (cfg : TreeConfig) : Option (List PlacedTree) :=
  let sx := pyint (cfg.crown_width / cube_size + 1) + 1
  let sy := pyint (cfg.crown_width / cube_size + 1) + 1
  let sz := pyint ((cfg.stem_height + cfg.crown_height - cfg.crown_offset) / cube_size + 1) + 1
  if 0 ≤ sx ∧ 0 ≤ sy ∧ 0 ≤ sz then
    let shape : ℕ × ℕ × ℕ := (sx.toNat, sy.toNat, sz.toNat)
    let stemW := add_stem_writes shape cfg.stem_diameter cfg.stem_height
    let crownW := crown_writes shape cfg
    match (stemW ++ crownW).mapM (npIndex3 shape) with
    | none => none
    | some _ =>
        let g0 : Grid := ⟨shape, fun _ => CellType.no_tree.value⟩
        let g1 := writeCells g0 (stemW.filterMap (npIndex3 shape)) CellType.stem.value
        let g2 := writeCells g1 (crownW.filterMap (npIndex3 shape)) CellType.crown.value
        some (trees ++ [⟨(pyint (position.1 / cube_size), pyint (position.2.1 / cube_size),
          pyint (position.2.2 / cube_size)), cid, g2⟩])
  else none

/-- Configuration with a non-positive dimension (`stem_diameter = -1`). -/
def cfgNeg : TreeConfig := ⟨1, -1, 1, 1, 0, .columnar⟩

/-- Configuration with all dimensions positive but the stem wider than the
crown-sized grid. -/
def cfgWide : TreeConfig := ⟨1, 4, 1, 1, 0, .columnar⟩

theorem pyint_intCast (n : ℤ) : pyint ((n : ℤ) : ℚ) = n := by
  unfold pyint
  rw [Rat.num_intCast, Rat.den_intCast]
  exact Int.div_one n

theorem pyint_eval {q : ℚ} {n : ℤ} (h : q = (n : ℚ)) : pyint q = n := by
  rw [h, pyint_intCast]

theorem cfgNeg_type : cfgNeg.crown_type = CrownType.columnar := rfl

theorem cfgWide_type : cfgWide.crown_type = CrownType.columnar := rfl

theorem cfgNeg_e1 : pyint (cfgNeg.crown_width / cube_size + 1) = 3 :=
  pyint_eval (by norm_num [cfgNeg, cube_size])

theorem cfgNeg_e2 :
    pyint ((cfgNeg.stem_height + cfgNeg.crown_height - cfgNeg.crown_offset) / cube_size + 1) = 5 :=
  pyint_eval (by norm_num [cfgNeg, cube_size])

theorem cfgNeg_e3 : pyint (cfgNeg.stem_diameter / 2 / cube_size) = -1 :=
  pyint_eval (by norm_num [cfgNeg, cube_size])

theorem cfgNeg_e4 : pyint (cfgNeg.stem_diameter / cube_size) = -2 :=
  pyint_eval (by norm_num [cfgNeg, cube_size])

theorem cfgNeg_e5 : pyint (cfgNeg.stem_height / cube_size) = 2 :=
  pyint_eval (by norm_num [cfgNeg, cube_size])

theorem cfgNeg_e6 : pyint (cfgNeg.crown_width / 2 / cube_size) = 1 :=
  pyint_eval (by norm_num [cfgNeg, cube_size])

theorem cfgNeg_e7 : pyint (cfgNeg.crown_height / cube_size) = 2 :=
  pyint_eval (by norm_num [cfgNeg, cube_size])

theorem cfgNeg_e8 : pyint ((cfgNeg.stem_height - cfgNeg.crown_offset) / cube_size) = 2 :=
  pyint_eval (by norm_num [cfgNeg, cube_size])

theorem pyint_zero_div : pyint ((0 : ℚ) / cube_size) = 0 :=
  pyint_eval (by norm_num [cube_size])

theorem cfgWide_e1 : pyint (cfgWide.crown_width / cube_size + 1) = 3 :=
  pyint_eval (by norm_num [cfgWide, cube_size])

theorem cfgWide_e2 :
    pyint ((cfgWide.stem_height + cfgWide.crown_height - cfgWide.crown_offset) / cube_size + 1) = 5 :=
  pyint_eval (by norm_num [cfgWide, cube_size])

theorem cfgWide_e3 : pyint (cfgWide.stem_diameter / 2 / cube_size) = 4 :=
  pyint_eval (by norm_num [cfgWide, cube_size])

theorem cfgWide_e4 : pyint (cfgWide.stem_diameter / cube_size) = 8 :=
  pyint_eval (by norm_num [cfgWide, cube_size])

theorem cfgWide_e5 : pyint (cfgWide.stem_height / cube_size) = 2 :=
  pyint_eval (by norm_num [cfgWide, cube_size])

theorem cfgWide_e6 : pyint (cfgWide.crown_width / 2 / cube_size) = 1 :=
  pyint_eval (by norm_num [cfgWide, cube_size])

theorem cfgWide_e7 : pyint (cfgWide.crown_height / cube_size) = 2 :=
  pyint_eval (by norm_num [cfgWide, cube_size])

theorem cfgWide_e8 : pyint ((cfgWide.stem_height - cfgWide.crown_offset) / cube_size) = 2 :=
  pyint_eval (by norm_num [cfgWide, cube_size])

/-- C7 counterexample: the configuration `cfgNeg` has a non-positive
dimension, yet `add_tree` raises no error at all — it completes and appends
the tree (there is no ConfigurationError in the code and no validation
before allocation). -/
theorem add_tree_nonpositive_no_error_cex :
    cfgNeg.stem_diameter ≤ 0 ∧ (add_tree [] (0, 0, 0) 0 cfgNeg).isSome = true := by
  constructor
  · rw [show cfgNeg.stem_diameter = -1 from rfl]
    norm_num
  · simp only [add_tree, add_stem_writes, add_columnar_writes, crown_writes, cfgNeg_type,
      cfgNeg_e1, cfgNeg_e2, cfgNeg_e3, cfgNeg_e4, cfgNeg_e5, cfgNeg_e6, cfgNeg_e7,
      cfgNeg_e8, pyint_zero_div]
    decide

/-- C7 (amended): `add_tree` performs no dimension validation and never
raises a ConfigurationError: a configuration with a non-positive dimension
can complete successfully, appending its tree to the list; conversely the
fill is not total on positive-dimension inputs either — a stem wider than
the crown-sized grid indexes out of range (`IndexError`), so the only
failures are numpy errors during allocation or fill, never a pre-allocation
configuration check. -/
theorem add_tree_no_validation :
    (cfgNeg.stem_diameter ≤ 0 ∧
      (add_tree [] (0, 0, 0) 0 cfgNeg).map List.length = some 1) ∧
    (0 < cfgWide.stem_height ∧ 0 < cfgWide.stem_diameter ∧ 0 < cfgWide.crown_width ∧
      0 < cfgWide.crown_height ∧ (add_tree [] (0, 0, 0) 0 cfgWide).isNone = true) := by
  constructor
  constructor
  · rw [show cfgNeg.stem_diameter = -1 from rfl]
    norm_num
  · simp only [add_tree, add_stem_writes, add_columnar_writes, crown_writes, cfgNeg_type,
      cfgNeg_e1, cfgNeg_e2, cfgNeg_e3, cfgNeg_e4, cfgNeg_e5, cfgNeg_e6, cfgNeg_e7,
      cfgNeg_e8, pyint_zero_div]
    decide
  refine ⟨?_, ?_, ?_, ?_, ?_⟩
  · rw [show cfgWide.stem_height = 1 from rfl]
    norm_num
  · rw [show cfgWide.stem_diameter = 4 from rfl]
    norm_num
  · rw [show cfgWide.crown_width = 1 from rfl]
    norm_num
  · rw [show cfgWide.crown_height = 1 from rfl]
    norm_num
  · simp only [add_tree, add_stem_writes, add_columnar_writes, crown_writes, cfgWide_type,
      cfgWide_e1, cfgWide_e2, cfgWide_e3, cfgWide_e4, cfgWide_e5, cfgWide_e6, cfgWide_e7,
      cfgWide_e8, pyint_zero_div]
    decide

/-! ## GreedyMesher: `capture_rows` / `capture_planes` / `capture_quads`
(claim C2)

`capture_rows` detects, per `(y, z)` line, the maximal X-runs of Crown cells
via the forward difference of the crown indicator (`np.diff` with prepended
and appended zeros: a `+1` at `x` starts a run, a `-1` at `x` ends the run at
`x - 1`), pairing each end with its most recent start, i.e. positionally.
The ephemeral `rows` / `planes` dictionaries ("mapping key → set of
segments") become association lists (`Store`), and the
check-and-remove `row_matches_segment_length` / `plane_matches_segment_length`
helpers become `segMatches` + `removeSeg`.  The two extension loops of
`capture_plane` and `capture_quad` share one generic implementation
(`extendNeg` / `extendPos` / `captureSpan`) over the extension coordinate
(`y` within a fixed `z` group for planes, `z` for quads).  The source's
`while rows/planes:` loops pop an arbitrary entry; the embedding pops the
first nonempty entry (`firstSeg`), one admissible order (the spec leaves the
decomposition order unspecified).  The `if h : totalSize ... < ...` guard in
the outer loops is always taken (the popped segment is present, so the span
removes at least it) and only discharges termination. -/

/-- Crown indicator of line `(y,z)` at x-index `n` (false outside the grid,
which also models the appended zero column of `np.diff`). -/
def crownInd (g : Grid) (y z : ℤ) (n : ℕ) : Bool :=
  decide (inBounds g.shape ((n : ℤ), y, z)) &&
    decide (g.data ((n : ℤ), y, z) = CellType.crown.value)

/-- Indicator of the previous x-index (the prepended zero of `np.diff`). -/
def predInd (g : Grid) (y z : ℤ) : ℕ → Bool
  | 0 => false
  | n + 1 => crownInd g y z n

/-- Positions of `diff > 0`: run starts. -/
def row_starts (g : Grid) (y z : ℤ) : List ℕ :=
  (List.range (g.shape.1 + 1)).filter fun n => crownInd g y z n && !(predInd g y z n)

/-- Positions of `diff < 0`: one past the inclusive run ends. -/
def row_ends (g : Grid) (y z : ℤ) : List ℕ :=
  (List.range (g.shape.1 + 1)).filter fun n => !(crownInd g y z n) && predInd g y z n

/-- The X-runs `(x_start, x_end)` (inclusive) of one `(y, z)` line: the i-th
end (minus one) pairs with the i-th start, as the sort-and-pair loop of
`capture_rows` produces. -/
def row_runs (g : Grid) (y z : ℤ) : List (ℤ × ℤ) :=
  List.zip ((row_starts g y z).map fun n : ℕ => (n : ℤ))
    ((row_ends g y z).map fun n : ℕ => (n : ℤ) - 1)

/-- An ephemeral keyed segment store (`rows`: key `(y, z)`, segments
`(x_start, x_end)`; `planes`: key `z`, segments
`(x_start, y_start, x_end, y_end)`).  The first key component is the
coordinate along which spans extend. -/
abbrev Store (G P : Type) : Type := List ((ℤ × G) × List P)

/-- `VoxelGrid.capture_rows`: one entry per `(y, z)` line holding its
X-runs.  (The source only materializes nonempty keys; an empty segment list
behaves identically to an absent key in every lookup.) -/
def capture_rows (g : Grid) : Store ℤ (ℤ × ℤ) :=
  (List.range g.shape.2.1).flatMap fun y : ℕ =>
    (List.range g.shape.2.2).map fun z : ℕ =>
      (((y : ℤ), (z : ℤ)), row_runs g (y : ℤ) (z : ℤ))

def lookupSegs {G P : Type} [DecidableEq G] (st : Store G P) (k : ℤ × G) : List P :=
  match st.find? fun e => decide (e.1 = k) with
  | some e => e.2
  | none => []

/-- The membership test of `row_matches_segment_length` /
`plane_matches_segment_length`. -/
def segMatches {G P : Type} [DecidableEq G] [DecidableEq P] (st : Store G P)
    (k : ℤ × G) (p : P) : Bool :=
  decide (p ∈ lookupSegs st k)

/-- The `remove` (and delete-when-empty) part of the matchers: erase one
copy of the matched segment under its key. -/
def removeSeg {G P : Type} [DecidableEq G] [DecidableEq P] (st : Store G P)
    (k : ℤ × G) (p : P) : Store G P :=
  st.map fun e => if e.1 = k then (e.1, e.2.erase p) else e

def totalSize {G P : Type} (st : Store G P) : ℕ := (st.map fun e => e.2.length).sum

theorem sum_lt_of_mem {A : Type} {l : List A} {f g : A → ℕ}
    (h : ∀ a ∈ l, f a ≤ g a) (a0 : A) (ha : a0 ∈ l) (hs : f a0 < g a0) :
    (l.map f).sum < (l.map g).sum := by
  induction l with
  | nil => exact absurd ha (List.not_mem_nil a0)
  | cons b l ih =>
      simp only [List.map_cons, List.sum_cons]
      rcases List.mem_cons.mp ha with rfl | ha'
      · have hrest : (l.map f).sum ≤ (l.map g).sum :=
          List.sum_le_sum fun a hal => h a (List.mem_cons_of_mem a0 hal)
        omega
      · have hb : f b ≤ g b := h b (List.mem_cons_self b l)
        have := ih (fun a hal => h a (List.mem_cons_of_mem b hal)) ha'
        omega

theorem totalSize_removeSeg_lt {G P : Type} [DecidableEq G] [DecidableEq P]
    {st : Store G P} {k : ℤ × G} {p : P} (h : segMatches st k p = true) :
    totalSize (removeSeg st k p) < totalSize st := by
  unfold segMatches lookupSegs at h
  rw [decide_eq_true_eq] at h
  rcases hf : st.find? fun e => decide (e.1 = k) with _ | e
  · rw [hf] at h
    exact absurd h (List.not_mem_nil p)
  rw [hf] at h
  dsimp only at h
  have hkey : e.1 = k := by
    have := List.find?_some hf
    rwa [decide_eq_true_eq] at this
  have hmem : e ∈ st := List.mem_of_find?_eq_some hf
  unfold totalSize removeSeg
  rw [List.map_map]
  refine sum_lt_of_mem ?_ e hmem ?_
  · intro a ha
    show (if a.1 = k then (a.1, a.2.erase p) else a).2.length ≤ a.2.length
    by_cases hak : a.1 = k
    · rw [if_pos hak]
      exact List.length_erase_le p a.2
    · rw [if_neg hak]
  · show (if e.1 = k then (e.1, e.2.erase p) else e).2.length < e.2.length
    rw [if_pos hkey]
    rw [List.length_erase_of_mem h]
    have : e.2.length ≠ 0 := by
      intro h0
      rw [List.length_eq_zero.mp h0] at h
      exact absurd h (List.not_mem_nil p)
    omega

/-- The downward extension loop (`offset_minus`): keep matching and removing
at `k, k-1, ...`; returns the store and the lowest matched coordinate (or
`k + 1` when nothing matched). -/
def extendNeg {G P : Type} [DecidableEq G] [DecidableEq P] (st : Store G P)
    (g : G) (p : P) (k : ℤ) : Store G P × ℤ :=
  if h : segMatches st (k, g) p = true then
    extendNeg (removeSeg st (k, g) p) g p (k - 1)
  else (st, k + 1)
termination_by totalSize st
decreasing_by exact totalSize_removeSeg_lt h

/-- The upward extension loop (`offset_plus`): keep matching and removing at
`k, k+1, ...`; returns the store and the highest matched coordinate (or
`k - 1` when nothing matched). -/
def extendPos {G P : Type} [DecidableEq G] [DecidableEq P] (st : Store G P)
    (g : G) (p : P) (k : ℤ) : Store G P × ℤ :=
  if h : segMatches st (k, g) p = true then
    extendPos (removeSeg st (k, g) p) g p (k + 1)
  else (st, k - 1)
termination_by totalSize st
decreasing_by exact totalSize_removeSeg_lt h

/-- `capture_plane` / `capture_quad`: extend down from `k`, then up from
`k + 1`; returns the consumed store and the inclusive coordinate span. -/
def captureSpan {G P : Type} [DecidableEq G] [DecidableEq P] (st : Store G P)
    (g : G) (p : P) (k : ℤ) : Store G P × ℤ × ℤ :=
  let dn := extendNeg st g p k
  let up := extendPos dn.1 g p (k + 1)
  (up.1, dn.2, up.2)

/-- `next(iter(...))` over the store: the first segment of the first
nonempty entry. -/
def firstSeg {G P : Type} : Store G P → Option ((ℤ × G) × P)
  | [] => none
  | (_, []) :: rest => firstSeg rest
  | (k, p :: _) :: _ => some (k, p)

/-- Insertion into the `planes` accumulator (`planes[z].add(plane)` with
key creation).  Emitted segments have pairwise-disjoint cells (proved below),
so the set `add` never sees a duplicate and list append is faithful. -/
def insertSeg {G P : Type} [DecidableEq G] (st : Store G P) (k : ℤ × G) (p : P) :
    Store G P :=
  if (st.find? fun e => decide (e.1 = k)).isSome then
    st.map fun e => if e.1 = k then (e.1, e.2 ++ [p]) else e
  else st ++ [(k, [p])]

/-- The `while len(rows) > 0` loop of `capture_planes`. -/
def capture_planes_loop (rows : Store ℤ (ℤ × ℤ)) (planes : Store Unit (ℤ × ℤ × ℤ × ℤ)) :
    Store Unit (ℤ × ℤ × ℤ × ℤ) :=
  match firstSeg rows with
  | none => planes
  | some ((y, z), s) =>
      let res := captureSpan rows z s y
      if h : totalSize res.1 < totalSize rows then
        capture_planes_loop res.1 (insertSeg planes (z, ()) (s.1, res.2.1, s.2, res.2.2))
      else planes
termination_by totalSize rows

/-- `VoxelGrid.capture_planes`. -/
def capture_planes (g : Grid) : Store Unit (ℤ × ℤ × ℤ × ℤ) :=
  capture_planes_loop (capture_rows g) []

/-- The `while len(planes) > 0` loop of `capture_quads`; quads are
`(x_start, y_start, z_start, x_end, y_end, z_end)`, all inclusive. -/
def capture_quads_loop (planes : Store Unit (ℤ × ℤ × ℤ × ℤ))
    (quads : List (ℤ × ℤ × ℤ × ℤ × ℤ × ℤ)) : List (ℤ × ℤ × ℤ × ℤ × ℤ × ℤ) :=
  match firstSeg planes with
  | none => quads
  | some ((z, _), q) =>
      let res := captureSpan planes () q z
      if h : totalSize res.1 < totalSize planes then
        capture_quads_loop res.1 (quads ++ [(q.1, q.2.1, res.2.1, q.2.2.1, q.2.2.2, res.2.2)])
      else quads
termination_by totalSize planes

/-- `VoxelGrid.capture_quads`. -/
def capture_quads (g : Grid) : List (ℤ × ℤ × ℤ × ℤ × ℤ × ℤ) :=
  capture_quads_loop (capture_planes g) []

/-- The cells covered by one output box
`(x_start, y_start, z_start, x_end, y_end, z_end)`, all bounds inclusive. -/
def boxCells (b : ℤ × ℤ × ℤ × ℤ × ℤ × ℤ) : Finset Pos :=
  Finset.Icc b.1 b.2.2.2.1 ×ˢ
    (Finset.Icc b.2.1 b.2.2.2.2.1 ×ˢ Finset.Icc b.2.2.1 b.2.2.2.2.2)

/-! ### Correctness of the per-line run extraction

A generic scan argument over an arbitrary indicator `I : ℕ → Bool`: the
positions of the rising edges (`scanS`) and falling edges (`scanE`) of `I`,
zipped positionally, enumerate exactly the maximal runs of `I`, in order. -/

/-- The indicator shifted by one (the prepended zero of `np.diff`). -/
def scanPre (I : ℕ → Bool) : ℕ → Bool
  | 0 => false
  | n + 1 => I n

/-- Rising-edge positions of `I` below `n`. -/
def scanS (I : ℕ → Bool) (n : ℕ) : List ℕ :=
  (List.range n).filter fun m => I m && !(scanPre I m)

/-- Falling-edge positions of `I` below `n`. -/
def scanE (I : ℕ → Bool) (n : ℕ) : List ℕ :=
  (List.range n).filter fun m => !(I m) && scanPre I m

/-- Rising edges paired positionally with falling edges (runs as
half-open intervals). -/
def scanZ (I : ℕ → Bool) (n : ℕ) : List (ℕ × ℕ) :=
  List.zip (scanS I n) (scanE I n)

/-- `rs` is a correct ordered run decomposition of `I` below `n`
(half-open intervals). -/
def GoodRuns (I : ℕ → Bool) (n : ℕ) (rs : List (ℕ × ℕ)) : Prop :=
  (∀ x : ℕ, (∃ r ∈ rs, r.1 ≤ x ∧ x < r.2) ↔ (x < n ∧ I x = true)) ∧
  rs.Pairwise (fun r r' => r.2 ≤ r'.1) ∧
  ∀ r ∈ rs, r.1 < r.2 ∧ r.2 ≤ n

/-- Scan invariant: either the scan is outside a run (equally many rising
and falling edges, and the zip is a correct decomposition), or it is inside
a run that started at `s` (one unmatched rising edge `s`, correct
decomposition below `s`). -/
def RState (I : ℕ → Bool) (n : ℕ) : Prop :=
  (scanPre I n = false ∧ (scanS I n).length = (scanE I n).length ∧
    GoodRuns I n (scanZ I n)) ∨
  (scanPre I n = true ∧ ∃ s, s < n ∧ (∀ x, s ≤ x → x < n → I x = true) ∧
    scanS I n = scanS I s ++ [s] ∧ scanE I n = scanE I s ∧
    (scanS I s).length = (scanE I s).length ∧ GoodRuns I s (scanZ I s))

theorem scanPre_succ (I : ℕ → Bool) (n : ℕ) : scanPre I (n + 1) = I n := rfl

theorem scanS_succ (I : ℕ → Bool) (n : ℕ) :
    scanS I (n + 1) = scanS I n ++ if I n && !(scanPre I n) then [n] else [] := by
  unfold scanS
  rw [List.range_succ, List.filter_append]
  congr 1
  simp [List.filter_cons]

theorem scanE_succ (I : ℕ → Bool) (n : ℕ) :
    scanE I (n + 1) = scanE I n ++ if !(I n) && scanPre I n then [n] else [] := by
  unfold scanE
  rw [List.range_succ, List.filter_append]
  congr 1
  simp [List.filter_cons]

theorem rstate_zero (I : ℕ → Bool) : RState I 0 := by
  unfold RState
  left
  refine ⟨rfl, rfl, ?_, ?_, ?_⟩
  · intro x
    constructor
    · rintro ⟨r, hr, -⟩
      exact absurd hr (List.not_mem_nil r)
    · rintro ⟨h, -⟩
      omega
  · exact List.Pairwise.nil
  · intro r hr
    exact absurd hr (List.not_mem_nil r)

theorem rstate_step (I : ℕ → Bool) (n : ℕ) (h : RState I n) : RState I (n + 1) := by
  unfold RState at h ⊢
  cases hI : I n
  · cases hP : scanPre I n
    · -- no event: closed state persists
      rcases h with ⟨-, hlen, hgood⟩ | ⟨hpre, -⟩
      · left
        have hS : scanS I (n + 1) = scanS I n := by
          rw [scanS_succ, hI]
          simp
        have hE : scanE I (n + 1) = scanE I n := by
          rw [scanE_succ, hP]
          simp
        refine ⟨by rw [scanPre_succ]; exact hI, by rw [hS, hE]; exact hlen, ?_⟩
        have hz : scanZ I (n + 1) = scanZ I n := by
          unfold scanZ
          rw [hS, hE]
        rw [hz]
        obtain ⟨hcov, hord, hbnd⟩ := hgood
        refine ⟨?_, hord, ?_⟩
        · intro x
          rw [hcov x]
          constructor
          · rintro ⟨h1, h2⟩
            exact ⟨Nat.lt_succ_of_lt h1, h2⟩
          · rintro ⟨h1, h2⟩
            refine ⟨?_, h2⟩
            rcases Nat.lt_succ_iff_lt_or_eq.mp h1 with h1 | rfl
            · exact h1
            · rw [h2] at hI
              exact Bool.noConfusion hI
        · intro r hr
          have := hbnd r hr
          omega
      · rw [hP] at hpre
        exact Bool.noConfusion hpre
    · -- falling edge: close the open run
      rcases h with ⟨hpre, -⟩ | ⟨-, s, hsn, hrun, hSn, hEn, hlen, hgood⟩
      · rw [hP] at hpre
        exact Bool.noConfusion hpre
      left
      have hS : scanS I (n + 1) = scanS I s ++ [s] := by
        rw [scanS_succ, hI]
        simp [hSn]
      have hE : scanE I (n + 1) = scanE I s ++ [n] := by
        rw [scanE_succ, hI, hP]
        simp [hEn]
      refine ⟨by rw [scanPre_succ]; exact hI, ?_, ?_⟩
      · rw [hS, hE]
        simp [hlen]
      · have hzip : scanZ I (n + 1) = scanZ I s ++ [(s, n)] := by
          unfold scanZ
          rw [hS, hE, List.zip_append hlen]
          rfl
        rw [hzip]
        obtain ⟨hcov, hord, hbnd⟩ := hgood
        refine ⟨?_, ?_, ?_⟩
        · intro x
          constructor
          · rintro ⟨r, hr, h1, h2⟩
            rcases List.mem_append.mp hr with hr | hr
            · have := (hcov x).mp ⟨r, hr, h1, h2⟩
              exact ⟨by omega, this.2⟩
            · rw [List.mem_singleton] at hr
              subst hr
              exact ⟨by omega, hrun x h1 h2⟩
          · rintro ⟨hx, hIx⟩
            by_cases hxs : x < s
            · obtain ⟨r, hr, h12⟩ := (hcov x).mpr ⟨hxs, hIx⟩
              exact ⟨r, List.mem_append_left _ hr, h12⟩
            · have hxn : x < n := by
                rcases Nat.lt_succ_iff_lt_or_eq.mp hx with h1 | rfl
                · rcases Nat.lt_or_ge x n with h2 | h2
                  · exact h2
                  · omega
                · rw [hIx] at hI
                  exact Bool.noConfusion hI
              refine ⟨(s, n), List.mem_append_right _ (List.mem_singleton.mpr rfl), ?_, ?_⟩
              · exact Nat.le_of_not_lt hxs
              · exact hxn
        · rw [List.pairwise_append]
          refine ⟨hord, List.pairwise_singleton _ _, ?_⟩
          intro r hr r' hr'
          rw [List.mem_singleton] at hr'
          subst hr'
          exact (hbnd r hr).2
        · intro r hr
          rcases List.mem_append.mp hr with hr | hr
          · have := hbnd r hr
            omega
          · rw [List.mem_singleton] at hr
            subst hr
            exact ⟨hsn, by omega⟩
  · cases hP : scanPre I n
    · -- rising edge: open a run at n
      rcases h with ⟨-, hlen, hgood⟩ | ⟨hpre, -⟩
      · right
        have hS : scanS I (n + 1) = scanS I n ++ [n] := by
          rw [scanS_succ, hI, hP]
          simp
        have hE : scanE I (n + 1) = scanE I n := by
          rw [scanE_succ, hI]
          simp
        refine ⟨by rw [scanPre_succ]; exact hI, n, Nat.lt_succ_self n, ?_, hS, hE,
          hlen, hgood⟩
        intro x h1 h2
        have hx : x = n := by omega
        subst hx
        exact hI
      · rw [hP] at hpre
        exact Bool.noConfusion hpre
    · -- inside a run: extend it
      rcases h with ⟨hpre, -⟩ | ⟨-, s, hsn, hrun, hSn, hEn, hlen, hgood⟩
      · rw [hP] at hpre
        exact Bool.noConfusion hpre
      right
      have hS : scanS I (n + 1) = scanS I n := by
        rw [scanS_succ, hP]
        simp
      have hE : scanE I (n + 1) = scanE I n := by
        rw [scanE_succ, hI]
        simp
      refine ⟨by rw [scanPre_succ]; exact hI, s, by omega, ?_,
        by rw [hS]; exact hSn, by rw [hE]; exact hEn, hlen, hgood⟩
      intro x h1 h2
      rcases Nat.lt_succ_iff_lt_or_eq.mp h2 with h2 | rfl
      · exact hrun x h1 h2
      · exact hI

theorem rstate_all (I : ℕ → Bool) : ∀ n, RState I n
  | 0 => rstate_zero I
  | n + 1 => rstate_step I n (rstate_all I n)

/-- When the indicator is off at the end of the scan, the zipped edges form
a correct ordered run decomposition. -/
theorem scan_final (I : ℕ → Bool) (N : ℕ) (hN : scanPre I N = false) :
    (scanS I N).length = (scanE I N).length ∧ GoodRuns I N (scanZ I N) := by
  rcases rstate_all I N with ⟨-, h1, h2⟩ | ⟨hpre, -⟩
  · exact ⟨h1, h2⟩
  · rw [hN] at hpre
    exact Bool.noConfusion hpre

theorem scanPre_crown (g : Grid) (y z : ℤ) :
    ∀ n, scanPre (crownInd g y z) n = predInd g y z n
  | 0 => rfl
  | _ + 1 => rfl

theorem crownInd_ge (g : Grid) (y z : ℤ) {n : ℕ} (hn : g.shape.1 ≤ n) :
    crownInd g y z n = false := by
  unfold crownInd
  rw [Bool.and_eq_false_iff]
  left
  rw [decide_eq_false_iff_not]
  intro h
  obtain ⟨-, h2, -⟩ := h
  omega

theorem row_starts_eq (g : Grid) (y z : ℤ) :
    row_starts g y z = scanS (crownInd g y z) (g.shape.1 + 1) := by
  unfold row_starts scanS
  refine List.filter_congr ?_
  intro n hn
  rw [scanPre_crown]

theorem row_ends_eq (g : Grid) (y z : ℤ) :
    row_ends g y z = scanE (crownInd g y z) (g.shape.1 + 1) := by
  unfold row_ends scanE
  refine List.filter_congr ?_
  intro n hn
  rw [scanPre_crown]

theorem row_runs_eq (g : Grid) (y z : ℤ) :
    row_runs g y z = (scanZ (crownInd g y z) (g.shape.1 + 1)).map
      fun q => ((q.1 : ℤ), (q.2 : ℤ) - 1) := by
  unfold row_runs scanZ
  rw [row_starts_eq, row_ends_eq,
    List.zip_map (fun n : ℕ => (n : ℤ)) (fun n : ℕ => (n : ℤ) - 1)
      (scanS (crownInd g y z) (g.shape.1 + 1)) (scanE (crownInd g y z) (g.shape.1 + 1))]
  refine List.map_congr_left ?_
  rintro ⟨a, b⟩ -
  rfl

/-- A cell is covered by some inclusive run of its line iff it is an
in-bounds Crown cell. -/
theorem row_runs_cov (g : Grid) (y z : ℤ) (xi : ℤ) :
    (∃ r ∈ row_runs g y z, r.1 ≤ xi ∧ xi ≤ r.2) ↔
      inBounds g.shape (xi, y, z) ∧ g.data (xi, y, z) = CellType.crown.value := by
  obtain ⟨-, hcov, -, -⟩ :=
    scan_final (crownInd g y z) (g.shape.1 + 1)
      (by rw [scanPre_succ]; exact crownInd_ge g y z (le_refl _))
  rw [row_runs_eq]
  constructor
  · rintro ⟨r, hr, h1, h2⟩
    rw [List.mem_map] at hr
    obtain ⟨q, hq, rfl⟩ := hr
    dsimp only at h1 h2
    have h0 : (0 : ℤ) ≤ xi := le_trans (Int.natCast_nonneg q.1) h1
    have hxi : xi = (xi.toNat : ℤ) := by omega
    have hmem : ∃ r ∈ scanZ (crownInd g y z) (g.shape.1 + 1),
        r.1 ≤ xi.toNat ∧ xi.toNat < r.2 := ⟨q, hq, by omega, by omega⟩
    have hc := ((hcov xi.toNat).mp hmem).2
    unfold crownInd at hc
    rw [Bool.and_eq_true, decide_eq_true_eq, decide_eq_true_eq] at hc
    rw [hxi]
    exact hc
  · rintro ⟨hin, hdat⟩
    have h0 : (0 : ℤ) ≤ xi := hin.1
    have hxi : xi = (xi.toNat : ℤ) := by omega
    have hI : crownInd g y z xi.toNat = true := by
      unfold crownInd
      rw [Bool.and_eq_true, decide_eq_true_eq, decide_eq_true_eq, ← hxi]
      exact ⟨hin, hdat⟩
    have hm : xi.toNat < g.shape.1 + 1 := by
      have := hin.2.1
      omega
    obtain ⟨q, hq, h1, h2⟩ := (hcov xi.toNat).mpr ⟨hm, hI⟩
    refine ⟨((q.1 : ℤ), (q.2 : ℤ) - 1), List.mem_map_of_mem _ hq, ?_, ?_⟩
    · show (q.1 : ℤ) ≤ xi
      omega
    · show xi ≤ (q.2 : ℤ) - 1
      omega

/-- The runs of one line are listed in strictly increasing disjoint order. -/
theorem row_runs_ord (g : Grid) (y z : ℤ) :
    (row_runs g y z).Pairwise fun r r' => r.2 < r'.1 := by
  obtain ⟨-, -, hord, -⟩ :=
    scan_final (crownInd g y z) (g.shape.1 + 1)
      (by rw [scanPre_succ]; exact crownInd_ge g y z (le_refl _))
  rw [row_runs_eq, List.pairwise_map]
  refine hord.imp ?_
  intro a b hab
  dsimp only
  omega

/-! ### Finite unions of cell sets -/

def unionList (l : List (Finset Pos)) : Finset Pos := l.foldr (· ∪ ·) ∅

theorem unionList_nil : unionList [] = ∅ := rfl

theorem unionList_cons (s : Finset Pos) (l : List (Finset Pos)) :
    unionList (s :: l) = s ∪ unionList l := rfl

theorem mem_unionList {l : List (Finset Pos)} {x : Pos} :
    x ∈ unionList l ↔ ∃ s ∈ l, x ∈ s := by
  induction l with
  | nil =>
      simp [unionList_nil]
  | cons s t ih =>
      rw [unionList_cons]
      simp only [Finset.mem_union, ih, List.mem_cons]
      constructor
      · rintro (h | ⟨u, hu, hx⟩)
        · exact ⟨s, Or.inl rfl, h⟩
        · exact ⟨u, Or.inr hu, hx⟩
      · rintro ⟨u, rfl | hu, hx⟩
        · exact Or.inl hx
        · exact Or.inr ⟨u, hu, hx⟩

theorem unionList_append (l r : List (Finset Pos)) :
    unionList (l ++ r) = unionList l ∪ unionList r := by
  induction l with
  | nil => simp [unionList_nil, unionList_cons]
  | cons s t ih =>
      rw [List.cons_append, unionList_cons, unionList_cons, ih, Finset.union_assoc]

theorem unionList_perm {l l' : List (Finset Pos)} (h : l.Perm l') :
    unionList l = unionList l' := by
  induction h with
  | nil => rfl
  | cons s _ ih => rw [unionList_cons, unionList_cons, ih]
  | swap s t u => rw [unionList_cons, unionList_cons, unionList_cons, unionList_cons,
      Finset.union_left_comm]
  | trans _ _ ih1 ih2 => rw [ih1, ih2]

theorem unionList_disjoint {l : List (Finset Pos)} {t : Finset Pos}
    (h : ∀ s ∈ l, Disjoint s t) : Disjoint (unionList l) t := by
  induction l with
  | nil => exact Finset.disjoint_empty_left t
  | cons s u ih =>
      rw [unionList_cons, Finset.disjoint_union_left]
      exact ⟨h s (List.mem_cons_self s u), ih fun v hv => h v (List.mem_cons_of_mem s hv)⟩

/-! ### Integer intervals as lists -/

def IccList (lo hi : ℤ) : List ℤ :=
  (List.range (hi + 1 - lo).toNat).map fun n : ℕ => lo + (n : ℤ)

theorem mem_IccList {lo hi j : ℤ} : j ∈ IccList lo hi ↔ lo ≤ j ∧ j ≤ hi := by
  simp only [IccList, List.mem_map, List.mem_range]
  constructor
  · rintro ⟨n, hn, rfl⟩
    omega
  · intro h
    exact ⟨(j - lo).toNat, by omega, by omega⟩

theorem IccList_empty {lo hi : ℤ} (h : hi < lo) : IccList lo hi = [] := by
  unfold IccList
  have h0 : (hi + 1 - lo).toNat = 0 := by omega
  rw [h0]
  rfl

theorem IccList_single (k : ℤ) : IccList k k = [k] := by
  unfold IccList
  have h1 : (k + 1 - k).toNat = 1 := by omega
  rw [h1]
  simp [List.range_succ]

theorem IccList_split (lo m hi : ℤ) (h1 : lo ≤ m + 1) (h2 : m ≤ hi) :
    IccList lo hi = IccList lo m ++ IccList (m + 1) hi := by
  unfold IccList
  have ha : (hi + 1 - lo).toNat = (m + 1 - lo).toNat + (hi - m).toNat := by omega
  have hb : (hi + 1 - (m + 1)).toNat = (hi - m).toNat := by omega
  rw [ha, hb, List.range_add, List.map_append, List.map_map]
  congr 1
  refine List.map_congr_left ?_
  intro x hx
  show lo + (((m + 1 - lo).toNat + x : ℕ) : ℤ) = m + 1 + (x : ℤ)
  push_cast
  omega

/-! ### Store entries -/

/-- All `(key, segment)` pairs held by the store, in store order. -/
def entriesOf {G P : Type} (st : Store G P) : List ((ℤ × G) × P) :=
  st.flatMap fun e => e.2.map fun p => (e.1, p)

/-- The keys of the store, in order. -/
def keysOf {G P : Type} (st : Store G P) : List (ℤ × G) := st.map fun e => e.1

/-- No two store entries share a key (holds for every store the mesher
builds, and makes lookup/remove act on the unique entry of a key). -/
def NodupKeys {G P : Type} (st : Store G P) : Prop := (keysOf st).Nodup

theorem entriesOf_nil {G P : Type} : entriesOf ([] : Store G P) = [] := rfl

theorem entriesOf_cons {G P : Type} (e : (ℤ × G) × List P) (st : Store G P) :
    entriesOf (e :: st) = (e.2.map fun p => (e.1, p)) ++ entriesOf st := by
  unfold entriesOf
  rw [List.flatMap_cons]

theorem entriesOf_append {G P : Type} (st st' : Store G P) :
    entriesOf (st ++ st') = entriesOf st ++ entriesOf st' := by
  unfold entriesOf
  rw [List.flatMap_append]

theorem totalSize_entries {G P : Type} (st : Store G P) :
    totalSize st = (entriesOf st).length := by
  induction st with
  | nil => rfl
  | cons e t ih =>
      rw [entriesOf_cons, List.length_append, List.length_map]
      unfold totalSize at ih ⊢
      rw [List.map_cons, List.sum_cons, ih]

theorem nodupKeys_cons {G P : Type} {e : (ℤ × G) × List P} {st : Store G P}
    (h : NodupKeys (e :: st)) : NodupKeys st ∧ e.1 ∉ keysOf st := by
  unfold NodupKeys keysOf at h
  rw [List.map_cons, List.nodup_cons] at h
  exact ⟨h.2, h.1⟩

theorem mem_keysOf_of_mem {G P : Type} {e : (ℤ × G) × List P} {st : Store G P}
    (h : e ∈ st) : e.1 ∈ keysOf st := List.mem_map_of_mem _ h

theorem mem_of_segMatches {G P : Type} [DecidableEq G] [DecidableEq P]
    {st : Store G P} {k : ℤ × G} {p : P} (h : segMatches st k p = true) :
    (k, p) ∈ entriesOf st := by
  unfold segMatches lookupSegs at h
  rw [decide_eq_true_eq] at h
  rcases hf : st.find? fun e => decide (e.1 = k) with _ | e
  · rw [hf] at h
    exact absurd h (List.not_mem_nil p)
  rw [hf] at h
  dsimp only at h
  have hkey : e.1 = k := by
    have := List.find?_some hf
    rwa [decide_eq_true_eq] at this
  have hmem : e ∈ st := List.mem_of_find?_eq_some hf
  unfold entriesOf
  rw [List.mem_flatMap]
  exact ⟨e, hmem, by rw [← hkey]; exact List.mem_map_of_mem _ h⟩

theorem segMatches_of_mem {G P : Type} [DecidableEq G] [DecidableEq P]
    {st : Store G P} {k : ℤ × G} {p : P} (hnd : NodupKeys st)
    (h : (k, p) ∈ entriesOf st) : segMatches st k p = true := by
  unfold entriesOf at h
  rw [List.mem_flatMap] at h
  obtain ⟨e, he, hp⟩ := h
  rw [List.mem_map] at hp
  obtain ⟨q, hq, hqe⟩ := hp
  have hkey : e.1 = k := congrArg Prod.fst hqe
  have hpq : q = p := congrArg Prod.snd hqe
  subst hpq
  unfold segMatches lookupSegs
  rcases hf : st.find? fun x => decide (x.1 = k) with _ | e'
  · rw [List.find?_eq_none] at hf
    exact absurd (by rw [decide_eq_true_eq]; exact hkey) (hf e he)
  have hkey' : e'.1 = k := by
    have := List.find?_some hf
    rwa [decide_eq_true_eq] at this
  have hmem' : e' ∈ st := List.mem_of_find?_eq_some hf
  have hee : e = e' := by
    have hnd' : (List.map (fun e : (ℤ × G) × List P => e.1) st).Nodup := hnd
    exact List.inj_on_of_nodup_map hnd' he hmem' (by rw [hkey, hkey'])
  subst hee
  rw [hf]
  dsimp only
  rw [decide_eq_true_eq]
  exact hq

theorem keysOf_removeSeg {G P : Type} [DecidableEq G] [DecidableEq P]
    (st : Store G P) (k : ℤ × G) (p : P) : keysOf (removeSeg st k p) = keysOf st := by
  unfold keysOf removeSeg
  rw [List.map_map]
  refine List.map_congr_left ?_
  intro e he
  show (if e.1 = k then (e.1, e.2.erase p) else e).1 = e.1
  by_cases hek : e.1 = k
  · rw [if_pos hek]
  · rw [if_neg hek]

theorem nodupKeys_removeSeg {G P : Type} [DecidableEq G] [DecidableEq P]
    {st : Store G P} (hnd : NodupKeys st) (k : ℤ × G) (p : P) :
    NodupKeys (removeSeg st k p) := by
  unfold NodupKeys
  rw [keysOf_removeSeg]
  exact hnd

theorem removeSeg_of_not_mem {G P : Type} [DecidableEq G] [DecidableEq P]
    {st : Store G P} {k : ℤ × G} (hk : k ∉ keysOf st) (p : P) :
    removeSeg st k p = st := by
  unfold removeSeg
  have hid : ∀ e ∈ st, (if e.1 = k then (e.1, e.2.erase p) else e) = id e := by
    intro e he
    rw [if_neg, id]
    intro hek
    exact hk (hek ▸ mem_keysOf_of_mem he)
  rw [List.map_congr_left hid, List.map_id]

theorem entriesOf_removeSeg {G P : Type} [DecidableEq G] [DecidableEq P]
    {st : Store G P} {k : ℤ × G} {p : P} (hnd : NodupKeys st)
    (h : segMatches st k p = true) :
    (entriesOf st).Perm ((k, p) :: entriesOf (removeSeg st k p)) := by
  induction st with
  | nil => exact absurd (mem_of_segMatches h) (List.not_mem_nil _)
  | cons e t ih =>
      obtain ⟨hndt, hknot⟩ := nodupKeys_cons hnd
      by_cases hek : e.1 = k
      · subst hek
        have hp : p ∈ e.2 := by
          unfold segMatches lookupSegs at h
          rw [List.find?_cons_of_pos _ (by rw [decide_eq_true_eq])] at h
          rwa [decide_eq_true_eq] at h
        have hrs : removeSeg (e :: t) e.1 p = (e.1, e.2.erase p) :: t := by
          unfold removeSeg
          rw [List.map_cons, if_pos rfl]
          congr 1
          have hrt : removeSeg t e.1 p = t := removeSeg_of_not_mem hknot p
          unfold removeSeg at hrt
          exact hrt
        rw [hrs, entriesOf_cons, entriesOf_cons]
        show ((e.2.map fun q => (e.1, q)) ++ entriesOf t).Perm
          ((e.1, p) :: (((e.2.erase p).map fun q => (e.1, q)) ++ entriesOf t))
        have h1 : e.2.Perm (p :: e.2.erase p) := List.perm_cons_erase hp
        exact (h1.map fun q => (e.1, q)).append_right (entriesOf t)
      · have h' : segMatches t k p = true := by
          unfold segMatches lookupSegs at h ⊢
          rwa [List.find?_cons_of_neg _ (by rw [decide_eq_true_eq]; exact hek)] at h
        have hrs : removeSeg (e :: t) k p = e :: removeSeg t k p := by
          unfold removeSeg
          rw [List.map_cons, if_neg hek]
        rw [hrs, entriesOf_cons, entriesOf_cons]
        exact ((ih hndt h').append_left _).trans List.perm_middle

theorem mem_keysOf_iff_found {G P : Type} [DecidableEq G] (st : Store G P) (k : ℤ × G) :
    (st.find? fun e => decide (e.1 = k)).isSome = true ↔ k ∈ keysOf st := by
  rw [List.find?_isSome]
  constructor
  · rintro ⟨e, he, hp⟩
    rw [decide_eq_true_eq] at hp
    exact hp ▸ mem_keysOf_of_mem he
  · intro hk
    unfold keysOf at hk
    rw [List.mem_map] at hk
    obtain ⟨e, he, hek⟩ := hk
    exact ⟨e, he, by rw [decide_eq_true_eq]; exact hek⟩

theorem entriesOf_appendSeg {G P : Type} [DecidableEq G]
    {st : Store G P} {k : ℤ × G} (p : P) (hnd : NodupKeys st) (hk : k ∈ keysOf st) :
    (entriesOf (st.map fun e => if e.1 = k then (e.1, e.2 ++ [p]) else e)).Perm
      ((k, p) :: entriesOf st) := by
  induction st with
  | nil => exact absurd hk (List.not_mem_nil k)
  | cons e t ih =>
      obtain ⟨hndt, hknot⟩ := nodupKeys_cons hnd
      unfold keysOf at hk
      rw [List.map_cons, List.mem_cons] at hk
      by_cases hek : e.1 = k
      · subst hek
        have ht : (t.map fun a => if a.1 = e.1 then (a.1, a.2 ++ [p]) else a) = t := by
          have hid : ∀ a ∈ t, (if a.1 = e.1 then (a.1, a.2 ++ [p]) else a) = id a := by
            intro a ha
            rw [if_neg, id]
            intro hak
            exact hknot (hak ▸ mem_keysOf_of_mem ha)
          rw [List.map_congr_left hid, List.map_id]
        rw [List.map_cons, if_pos rfl, ht, entriesOf_cons, entriesOf_cons]
        show (((e.2 ++ [p]).map fun q => (e.1, q)) ++ entriesOf t).Perm
          ((e.1, p) :: ((e.2.map fun q => (e.1, q)) ++ entriesOf t))
        rw [List.map_append, List.append_assoc]
        exact List.perm_middle
      · have hkt : k ∈ keysOf t := by
          rcases hk with hk | hk
          · exact absurd hk.symm hek
          · exact hk
        rw [List.map_cons, if_neg hek, entriesOf_cons, entriesOf_cons]
        exact ((ih hndt hkt).append_left _).trans List.perm_middle

theorem entriesOf_insertSeg {G P : Type} [DecidableEq G]
    (st : Store G P) (k : ℤ × G) (p : P) (hnd : NodupKeys st) :
    (entriesOf (insertSeg st k p)).Perm ((k, p) :: entriesOf st) := by
  unfold insertSeg
  by_cases hf : (st.find? fun e => decide (e.1 = k)).isSome = true
  · rw [if_pos hf]
    exact entriesOf_appendSeg p hnd ((mem_keysOf_iff_found st k).mp hf)
  · rw [if_neg hf]
    rw [entriesOf_append]
    have : entriesOf [(k, [p])] = [(k, p)] := rfl
    rw [this]
    exact List.perm_append_singleton _ _

theorem nodupKeys_insertSeg {G P : Type} [DecidableEq G]
    {st : Store G P} (hnd : NodupKeys st) (k : ℤ × G) (p : P) :
    NodupKeys (insertSeg st k p) := by
  unfold insertSeg
  by_cases hf : (st.find? fun e => decide (e.1 = k)).isSome = true
  · rw [if_pos hf]
    unfold NodupKeys keysOf
    rw [List.map_map]
    have hid : ∀ e ∈ st,
        ((fun e : (ℤ × G) × List P => e.1) ∘
          fun e => if e.1 = k then (e.1, e.2 ++ [p]) else e) e =
        (fun e : (ℤ × G) × List P => e.1) e := by
      intro e he
      show (if e.1 = k then (e.1, e.2 ++ [p]) else e).1 = e.1
      by_cases hek : e.1 = k
      · rw [if_pos hek]
      · rw [if_neg hek]
    rw [List.map_congr_left hid]
    exact hnd
  · rw [if_neg hf]
    unfold NodupKeys keysOf
    rw [List.map_append]
    rw [List.nodup_append]
    refine ⟨hnd, List.nodup_singleton k, ?_⟩
    intro a ha hb
    rw [List.map_cons, List.map_nil, List.mem_singleton] at hb
    subst hb
    have hmem : a ∈ keysOf st := ha
    exact hf (by rw [mem_keysOf_iff_found]; exact hmem)

theorem firstSeg_none {G P : Type} {st : Store G P} (h : firstSeg st = none) :
    entriesOf st = [] := by
  induction st with
  | nil => rfl
  | cons e t ih =>
      obtain ⟨k, l⟩ := e
      cases l with
      | nil =>
          rw [entriesOf_cons]
          have h' : firstSeg t = none := by
            unfold firstSeg at h
            exact h
          rw [ih h']
          rfl
      | cons p l' =>
          unfold firstSeg at h
          exact Option.noConfusion h

theorem firstSeg_mem {G P : Type} {st : Store G P} {k : ℤ × G} {p : P}
    (h : firstSeg st = some (k, p)) : (k, p) ∈ entriesOf st := by
  induction st with
  | nil => exact Option.noConfusion h
  | cons e t ih =>
      obtain ⟨k', l⟩ := e
      cases l with
      | nil =>
          have h' : firstSeg t = some (k, p) := by
            unfold firstSeg at h
            exact h
          rw [entriesOf_cons]
          exact List.mem_append_right _ (ih h')
      | cons q l' =>
          unfold firstSeg at h
          have hkp : k' = k ∧ q = p := by
            have := Option.some.inj h
            exact ⟨congrArg Prod.fst this, congrArg Prod.snd this⟩
          obtain ⟨rfl, rfl⟩ := hkp
          rw [entriesOf_cons]
          exact List.mem_append_left _ (List.mem_map_of_mem _ (List.mem_cons_self q l'))

/-! ### The span-extension loops consume exactly an interval of keys -/

theorem extendNeg_go {G P : Type} [DecidableEq G] [DecidableEq P]
    {st : Store G P} {g : G} {p : P} {k : ℤ} (hm : segMatches st (k, g) p = true) :
    extendNeg st g p k = extendNeg (removeSeg st (k, g) p) g p (k - 1) := by
  conv_lhs => unfold extendNeg
  rw [dif_pos hm]

theorem extendNeg_stop {G P : Type} [DecidableEq G] [DecidableEq P]
    {st : Store G P} {g : G} {p : P} {k : ℤ} (hm : ¬ segMatches st (k, g) p = true) :
    extendNeg st g p k = (st, k + 1) := by
  conv_lhs => unfold extendNeg
  rw [dif_neg hm]

theorem extendPos_go {G P : Type} [DecidableEq G] [DecidableEq P]
    {st : Store G P} {g : G} {p : P} {k : ℤ} (hm : segMatches st (k, g) p = true) :
    extendPos st g p k = extendPos (removeSeg st (k, g) p) g p (k + 1) := by
  conv_lhs => unfold extendPos
  rw [dif_pos hm]

theorem extendPos_stop {G P : Type} [DecidableEq G] [DecidableEq P]
    {st : Store G P} {g : G} {p : P} {k : ℤ} (hm : ¬ segMatches st (k, g) p = true) :
    extendPos st g p k = (st, k - 1) := by
  conv_lhs => unfold extendPos
  rw [dif_neg hm]

theorem extendNeg_spec {G P : Type} [DecidableEq G] [DecidableEq P] :
    ∀ (n : ℕ) (st : Store G P) (g : G) (p : P) (k : ℤ),
      totalSize st ≤ n → NodupKeys st →
      NodupKeys (extendNeg st g p k).1 ∧
      keysOf (extendNeg st g p k).1 = keysOf st ∧
      (extendNeg st g p k).2 ≤ k + 1 ∧
      (segMatches st (k, g) p = true → (extendNeg st g p k).2 ≤ k) ∧
      (entriesOf st).Perm (entriesOf (extendNeg st g p k).1 ++
        (IccList (extendNeg st g p k).2 k).map fun j => ((j, g), p)) := by
  intro n
  induction n with
  | zero =>
      intro st g p k hsz hnd
      have hm : ¬ segMatches st (k, g) p = true := by
        intro hm
        have hmem := mem_of_segMatches hm
        have h0 : (entriesOf st).length = 0 := by
          have := totalSize_entries st
          omega
        rw [List.length_eq_zero] at h0
        rw [h0] at hmem
        exact absurd hmem (List.not_mem_nil _)
      rw [extendNeg_stop hm]
      refine ⟨hnd, rfl, by omega, fun h => absurd h hm, ?_⟩
      rw [IccList_empty (by omega), List.map_nil, List.append_nil]
  | succ n ih =>
      intro st g p k hsz hnd
      by_cases hm : segMatches st (k, g) p = true
      · have hlt := totalSize_removeSeg_lt hm
        obtain ⟨ih1, ih2, ih3, -, ih5⟩ :=
          ih (removeSeg st (k, g) p) g p (k - 1) (by omega) (nodupKeys_removeSeg hnd _ _)
        rw [extendNeg_go hm]
        refine ⟨ih1, by rw [ih2, keysOf_removeSeg], by omega, fun h => by omega, ?_⟩
        have hsplit := IccList_split (extendNeg (removeSeg st (k, g) p) g p (k - 1)).2
          (k - 1) k ih3 (by omega)
        have hk1 : k - 1 + 1 = k := by ring
        rw [hk1, IccList_single] at hsplit
        refine (entriesOf_removeSeg hnd hm).trans ?_
        refine (ih5.cons _).trans ?_
        rw [hsplit, List.map_append]
        have hmid := (List.perm_append_singleton ((k, g), p)
          (entriesOf (extendNeg (removeSeg st (k, g) p) g p (k - 1)).1 ++
            (IccList (extendNeg (removeSeg st (k, g) p) g p (k - 1)).2 (k - 1)).map
              fun j => ((j, g), p))).symm
        rw [List.append_assoc] at hmid
        exact hmid
      · rw [extendNeg_stop hm]
        refine ⟨hnd, rfl, by omega, fun h => absurd h hm, ?_⟩
        rw [IccList_empty (by omega), List.map_nil, List.append_nil]

theorem extendPos_spec {G P : Type} [DecidableEq G] [DecidableEq P] :
    ∀ (n : ℕ) (st : Store G P) (g : G) (p : P) (k : ℤ),
      totalSize st ≤ n → NodupKeys st →
      NodupKeys (extendPos st g p k).1 ∧
      keysOf (extendPos st g p k).1 = keysOf st ∧
      k - 1 ≤ (extendPos st g p k).2 ∧
      (entriesOf st).Perm (entriesOf (extendPos st g p k).1 ++
        (IccList k (extendPos st g p k).2).map fun j => ((j, g), p)) := by
  intro n
  induction n with
  | zero =>
      intro st g p k hsz hnd
      have hm : ¬ segMatches st (k, g) p = true := by
        intro hm
        have hmem := mem_of_segMatches hm
        have h0 : (entriesOf st).length = 0 := by
          have := totalSize_entries st
          omega
        rw [List.length_eq_zero] at h0
        rw [h0] at hmem
        exact absurd hmem (List.not_mem_nil _)
      rw [extendPos_stop hm]
      refine ⟨hnd, rfl, by omega, ?_⟩
      rw [IccList_empty (by omega), List.map_nil, List.append_nil]
  | succ n ih =>
      intro st g p k hsz hnd
      by_cases hm : segMatches st (k, g) p = true
      · have hlt := totalSize_removeSeg_lt hm
        obtain ⟨ih1, ih2, ih3, ih4⟩ :=
          ih (removeSeg st (k, g) p) g p (k + 1) (by omega) (nodupKeys_removeSeg hnd _ _)
        rw [extendPos_go hm]
        refine ⟨ih1, by rw [ih2, keysOf_removeSeg], by omega, ?_⟩
        have hsplit := IccList_split k k (extendPos (removeSeg st (k, g) p) g p (k + 1)).2
          (by omega) (by omega)
        rw [IccList_single] at hsplit
        refine (entriesOf_removeSeg hnd hm).trans ?_
        refine (ih4.cons _).trans ?_
        rw [hsplit, List.map_append]
        exact List.perm_middle.symm
      · rw [extendPos_stop hm]
        refine ⟨hnd, rfl, by omega, ?_⟩
        rw [IccList_empty (by omega), List.map_nil, List.append_nil]

/-- `captureSpan` consumes exactly one copy of segment `p` at each key
`(j, g)` for `j` in the returned inclusive span, which contains the start
coordinate. -/
theorem captureSpan_spec {G P : Type} [DecidableEq G] [DecidableEq P]
    (st : Store G P) (g : G) (p : P) (k : ℤ) (hnd : NodupKeys st)
    (hm : segMatches st (k, g) p = true) :
    NodupKeys (captureSpan st g p k).1 ∧
    keysOf (captureSpan st g p k).1 = keysOf st ∧
    (captureSpan st g p k).2.1 ≤ k ∧ k ≤ (captureSpan st g p k).2.2 ∧
    (entriesOf st).Perm (entriesOf (captureSpan st g p k).1 ++
      (IccList (captureSpan st g p k).2.1 (captureSpan st g p k).2.2).map
        fun j => ((j, g), p)) := by
  obtain ⟨hN1, hN2, -, hN4, hN5⟩ :=
    extendNeg_spec (totalSize st) st g p k (le_refl _) hnd
  obtain ⟨hP1, hP2, hP3, hP4⟩ :=
    extendPos_spec (totalSize (extendNeg st g p k).1) (extendNeg st g p k).1 g p (k + 1)
      (le_refl _) hN1
  have hlo : (extendNeg st g p k).2 ≤ k := hN4 hm
  have hhi : k ≤ (extendPos (extendNeg st g p k).1 g p (k + 1)).2 := by omega
  simp only [captureSpan]
  refine ⟨hP1, by rw [hP2, hN2], hlo, hhi, ?_⟩
  refine hN5.trans ?_
  refine ((hP4.append_right _).trans ?_)
  rw [List.append_assoc]
  refine List.Perm.append_left _ ?_
  have hsplit := IccList_split (extendNeg st g p k).2 k
    (extendPos (extendNeg st g p k).1 g p (k + 1)).2 (by omega) (by omega)
  rw [hsplit, List.map_append]
  exact List.perm_append_comm

/-! ### Cells covered by row segments, plane segments and quads -/

/-- Cells of one X-run `r` on line `(y, z) = k`. -/
def rowCellsF (k : ℤ × ℤ) (r : ℤ × ℤ) : Finset Pos :=
  Finset.Icc r.1 r.2 ×ˢ ({k.1} ×ˢ {k.2})

/-- Cells of one plane segment `(x_start, y_start, x_end, y_end) = q` in the
Z-group `k.1`. -/
def planeCellsF (k : ℤ × Unit) (q : ℤ × ℤ × ℤ × ℤ) : Finset Pos :=
  Finset.Icc q.1 q.2.2.1 ×ˢ (Finset.Icc q.2.1 q.2.2.2 ×ˢ {k.1})

def rowEntryCells (e : (ℤ × ℤ) × (ℤ × ℤ)) : Finset Pos := rowCellsF e.1 e.2

def planeEntryCells (e : (ℤ × Unit) × (ℤ × ℤ × ℤ × ℤ)) : Finset Pos :=
  planeCellsF e.1 e.2

theorem mem_rowCellsF {k r : ℤ × ℤ} {x : Pos} :
    x ∈ rowCellsF k r ↔ (r.1 ≤ x.1 ∧ x.1 ≤ r.2) ∧ x.2.1 = k.1 ∧ x.2.2 = k.2 := by
  unfold rowCellsF
  rw [Finset.mem_product, Finset.mem_product, Finset.mem_Icc, Finset.mem_singleton,
    Finset.mem_singleton]

theorem mem_planeCellsF {k : ℤ × Unit} {q : ℤ × ℤ × ℤ × ℤ} {x : Pos} :
    x ∈ planeCellsF k q ↔ (q.1 ≤ x.1 ∧ x.1 ≤ q.2.2.1) ∧
      (q.2.1 ≤ x.2.1 ∧ x.2.1 ≤ q.2.2.2) ∧ x.2.2 = k.1 := by
  unfold planeCellsF
  rw [Finset.mem_product, Finset.mem_product, Finset.mem_Icc, Finset.mem_Icc,
    Finset.mem_singleton]

theorem mem_boxCells {b : ℤ × ℤ × ℤ × ℤ × ℤ × ℤ} {x : Pos} :
    x ∈ boxCells b ↔ (b.1 ≤ x.1 ∧ x.1 ≤ b.2.2.2.1) ∧
      (b.2.1 ≤ x.2.1 ∧ x.2.1 ≤ b.2.2.2.2.1) ∧
      (b.2.2.1 ≤ x.2.2 ∧ x.2.2 ≤ b.2.2.2.2.2) := by
  unfold boxCells
  rw [Finset.mem_product, Finset.mem_product, Finset.mem_Icc, Finset.mem_Icc,
    Finset.mem_Icc]

/-- A plane spanning rows `lo..hi` covers exactly the cells of the row
segment `s` repeated at each `y` in the span. -/
theorem plane_span_cells (z lo hi : ℤ) (s : ℤ × ℤ) :
    planeCellsF (z, ()) (s.1, lo, s.2, hi) =
      unionList ((IccList lo hi).map fun j => rowCellsF (j, z) s) := by
  ext x
  rw [mem_unionList]
  constructor
  · intro hx
    rw [mem_planeCellsF] at hx
    dsimp only at hx
    obtain ⟨h1, h2, h3⟩ := hx
    refine ⟨rowCellsF (x.2.1, z) s,
      List.mem_map_of_mem _ (mem_IccList.mpr ⟨h2.1, h2.2⟩), ?_⟩
    rw [mem_rowCellsF]
    exact ⟨h1, rfl, h3⟩
  · rintro ⟨t, ht, hx⟩
    rw [List.mem_map] at ht
    obtain ⟨j, hj, rfl⟩ := ht
    rw [mem_IccList] at hj
    rw [mem_rowCellsF] at hx
    dsimp only at hx
    obtain ⟨ha, hb, hc⟩ := hx
    rw [mem_planeCellsF]
    dsimp only
    refine ⟨ha, ⟨?_, ?_⟩, hc⟩
    · rw [hb]
      exact hj.1
    · rw [hb]
      exact hj.2

/-- A quad spanning planes `lo..hi` covers exactly the cells of the plane
segment `q` repeated at each `z` in the span. -/
theorem box_span_cells (q : ℤ × ℤ × ℤ × ℤ) (lo hi : ℤ) :
    boxCells (q.1, q.2.1, lo, q.2.2.1, q.2.2.2, hi) =
      unionList ((IccList lo hi).map fun j => planeCellsF (j, ()) q) := by
  ext x
  rw [mem_unionList]
  constructor
  · intro hx
    rw [mem_boxCells] at hx
    dsimp only at hx
    obtain ⟨h1, h2, h3⟩ := hx
    refine ⟨planeCellsF (x.2.2, ()) q,
      List.mem_map_of_mem _ (mem_IccList.mpr ⟨h3.1, h3.2⟩), ?_⟩
    rw [mem_planeCellsF]
    exact ⟨h1, h2, rfl⟩
  · rintro ⟨t, ht, hx⟩
    rw [List.mem_map] at ht
    obtain ⟨j, hj, rfl⟩ := ht
    rw [mem_IccList] at hj
    rw [mem_planeCellsF] at hx
    dsimp only at hx
    obtain ⟨ha, hb, hc⟩ := hx
    rw [mem_boxCells]
    dsimp only
    refine ⟨ha, hb, ?_, ?_⟩
    · rw [hc]
      exact hj.1
    · rw [hc]
      exact hj.2

/-- Replacing an adjacent block `R` of pairwise-disjoint sets by the single
set `⋃ R` keeps the family pairwise disjoint and keeps its union. -/
theorem pairwise_merge {A R B : List (Finset Pos)}
    (h : (A ++ (R ++ B)).Pairwise Disjoint) :
    ((A ++ B) ++ [unionList R]).Pairwise Disjoint ∧
    unionList ((A ++ B) ++ [unionList R]) = unionList (A ++ (R ++ B)) := by
  obtain ⟨pA, pRB, hAx⟩ := List.pairwise_append.mp h
  obtain ⟨pR, pB, hRB⟩ := List.pairwise_append.mp pRB
  constructor
  · rw [List.pairwise_append]
    refine ⟨?_, List.pairwise_singleton _ _, ?_⟩
    · rw [List.pairwise_append]
      exact ⟨pA, pB, fun a ha b hb => hAx a ha b (List.mem_append_right _ hb)⟩
    · intro a ha b hb
      rw [List.mem_singleton] at hb
      subst hb
      refine (unionList_disjoint ?_).symm
      intro s hs
      rcases List.mem_append.mp ha with ha | ha
      · exact (hAx a ha s (List.mem_append_left _ hs)).symm
      · exact hRB s hs a ha
  · simp only [unionList_append, unionList_cons, unionList_nil, Finset.union_empty]
    rw [Finset.union_assoc, Finset.union_comm (unionList B) (unionList R)]

/-! ### The outer greedy loops preserve coverage and disjointness -/

theorem capture_planes_loop_base {rows : Store ℤ (ℤ × ℤ)}
    {planes : Store Unit (ℤ × ℤ × ℤ × ℤ)} (hfs : firstSeg rows = none)
    (hndp : NodupKeys planes)
    (hpw : ((entriesOf rows).map rowEntryCells ++
      (entriesOf planes).map planeEntryCells).Pairwise Disjoint) :
    NodupKeys (capture_planes_loop rows planes) ∧
    ((entriesOf (capture_planes_loop rows planes)).map planeEntryCells).Pairwise Disjoint ∧
    unionList ((entriesOf (capture_planes_loop rows planes)).map planeEntryCells) =
      unionList ((entriesOf rows).map rowEntryCells) ∪
        unionList ((entriesOf planes).map planeEntryCells) := by
  have hE : entriesOf rows = [] := firstSeg_none hfs
  have heq : capture_planes_loop rows planes = planes := by
    rw [capture_planes_loop.eq_def, hfs]
  rw [hE, List.map_nil, List.nil_append] at hpw
  rw [heq, hE, List.map_nil, unionList_nil, Finset.empty_union]
  exact ⟨hndp, hpw, rfl⟩

theorem capture_planes_loop_spec :
    ∀ (n : ℕ) (rows : Store ℤ (ℤ × ℤ)) (planes : Store Unit (ℤ × ℤ × ℤ × ℤ)),
      totalSize rows ≤ n → NodupKeys rows → NodupKeys planes →
      ((entriesOf rows).map rowEntryCells ++
        (entriesOf planes).map planeEntryCells).Pairwise Disjoint →
      NodupKeys (capture_planes_loop rows planes) ∧
      ((entriesOf (capture_planes_loop rows planes)).map planeEntryCells).Pairwise Disjoint ∧
      unionList ((entriesOf (capture_planes_loop rows planes)).map planeEntryCells) =
        unionList ((entriesOf rows).map rowEntryCells) ∪
          unionList ((entriesOf planes).map planeEntryCells) := by
  intro n
  induction n with
  | zero =>
      intro rows planes hsz hndr hndp hpw
      rcases hfs : firstSeg rows with _ | kp
      · exact capture_planes_loop_base hfs hndp hpw
      · exfalso
        have hmem := firstSeg_mem hfs
        have h0 : (entriesOf rows).length = 0 := by
          have := totalSize_entries rows
          omega
        rw [List.length_eq_zero] at h0
        rw [h0] at hmem
        exact absurd hmem (List.not_mem_nil _)
  | succ n ih =>
      intro rows planes hsz hndr hndp hpw
      rcases hfs : firstSeg rows with _ | ⟨⟨y, z⟩, s⟩
      · exact capture_planes_loop_base hfs hndp hpw
      · have hmem : (((y, z) : ℤ × ℤ), s) ∈ entriesOf rows := firstSeg_mem hfs
        have hm : segMatches rows (y, z) s = true := segMatches_of_mem hndr hmem
        obtain ⟨hnd1, hks, hloy, hhiy, hperm⟩ := captureSpan_spec rows z s y hndr hm
        rcases hcs : captureSpan rows z s y with ⟨st1, lo, hi⟩
        rw [hcs] at hnd1 hks hloy hhiy hperm
        dsimp only at hnd1 hks hloy hhiy hperm
        have hlt : totalSize st1 < totalSize rows := by
          rw [totalSize_entries, totalSize_entries, hperm.length_eq, List.length_append]
          have hy : (y : ℤ) ∈ IccList lo hi := mem_IccList.mpr ⟨hloy, hhiy⟩
          have hpos := List.length_pos_of_mem
            (List.mem_map_of_mem (fun j => (((j, z) : ℤ × ℤ), s)) hy)
          omega
        have heq : capture_planes_loop rows planes =
            capture_planes_loop st1 (insertSeg planes (z, ()) (s.1, lo, s.2, hi)) := by
          rw [capture_planes_loop.eq_def, hfs]
          dsimp only
          rw [hcs]
          dsimp only
          rw [dif_pos hlt]
        rw [heq]
        have hABperm : ((entriesOf rows).map rowEntryCells).Perm
            ((entriesOf st1).map rowEntryCells ++
              ((IccList lo hi).map fun j => rowCellsF (j, z) s)) := by
          have hmap := hperm.map rowEntryCells
          rw [List.map_append, List.map_map] at hmap
          exact hmap
        have hLperm : ((entriesOf rows).map rowEntryCells ++
            (entriesOf planes).map planeEntryCells).Perm
            ((entriesOf st1).map rowEntryCells ++
              (((IccList lo hi).map fun j => rowCellsF (j, z) s) ++
                (entriesOf planes).map planeEntryCells)) := by
          refine (hABperm.append_right _).trans ?_
          rw [List.append_assoc]
        have hpw' := (hLperm.pairwise_iff fun h => Disjoint.symm h).mp hpw
        obtain ⟨hpwNew, -⟩ := pairwise_merge hpw'
        have hinsP := entriesOf_insertSeg planes (((z, ()) : ℤ × Unit))
          ((s.1, lo, s.2, hi) : ℤ × ℤ × ℤ × ℤ) hndp
        have hBcells := hinsP.map planeEntryCells
        have hnewc : planeEntryCells ((((z, ()) : ℤ × Unit)), (s.1, lo, s.2, hi)) =
            unionList ((IccList lo hi).map fun j => rowCellsF (j, z) s) := by
          show planeCellsF (z, ()) (s.1, lo, s.2, hi) = _
          exact plane_span_cells z lo hi s
        have hpwRec : ((entriesOf st1).map rowEntryCells ++
            (entriesOf (insertSeg planes (z, ()) (s.1, lo, s.2, hi))).map
              planeEntryCells).Pairwise Disjoint := by
          have hp1 : ((entriesOf st1).map rowEntryCells ++
              (entriesOf (insertSeg planes (z, ()) (s.1, lo, s.2, hi))).map
                planeEntryCells).Perm
              (((entriesOf st1).map rowEntryCells ++
                (entriesOf planes).map planeEntryCells) ++
                [unionList ((IccList lo hi).map fun j => rowCellsF (j, z) s)]) := by
            refine (List.Perm.append_left _ hBcells).trans ?_
            rw [List.map_cons, hnewc]
            exact List.perm_middle.trans (List.perm_append_singleton _ _).symm
          exact (hp1.pairwise_iff fun h => Disjoint.symm h).mpr hpwNew
        have hndp' := nodupKeys_insertSeg hndp (((z, ()) : ℤ × Unit)) (s.1, lo, s.2, hi)
        obtain ⟨c1, c2, c3⟩ := ih st1 (insertSeg planes (z, ()) (s.1, lo, s.2, hi))
          (by omega) hnd1 hndp' hpwRec
        refine ⟨c1, c2, ?_⟩
        rw [c3]
        have h1 : unionList ((entriesOf (insertSeg planes (z, ())
            (s.1, lo, s.2, hi))).map planeEntryCells) =
            unionList ((IccList lo hi).map fun j => rowCellsF (j, z) s) ∪
              unionList ((entriesOf planes).map planeEntryCells) := by
          rw [unionList_perm hBcells, List.map_cons, unionList_cons, hnewc]
        have h2 : unionList ((entriesOf rows).map rowEntryCells) =
            unionList ((entriesOf st1).map rowEntryCells) ∪
              unionList ((IccList lo hi).map fun j => rowCellsF (j, z) s) := by
          rw [unionList_perm hABperm, unionList_append]
        rw [h1, h2, ← Finset.union_assoc]

theorem capture_quads_loop_base {planes : Store Unit (ℤ × ℤ × ℤ × ℤ)}
    {quads : List (ℤ × ℤ × ℤ × ℤ × ℤ × ℤ)} (hfs : firstSeg planes = none)
    (hpw : ((entriesOf planes).map planeEntryCells ++
      quads.map boxCells).Pairwise Disjoint) :
    ((capture_quads_loop planes quads).map boxCells).Pairwise Disjoint ∧
    unionList ((capture_quads_loop planes quads).map boxCells) =
      unionList ((entriesOf planes).map planeEntryCells) ∪
        unionList (quads.map boxCells) := by
  have hE : entriesOf planes = [] := firstSeg_none hfs
  have heq : capture_quads_loop planes quads = quads := by
    rw [capture_quads_loop.eq_def, hfs]
  rw [hE, List.map_nil, List.nil_append] at hpw
  rw [heq, hE, List.map_nil, unionList_nil, Finset.empty_union]
  exact ⟨hpw, rfl⟩

theorem capture_quads_loop_spec :
    ∀ (n : ℕ) (planes : Store Unit (ℤ × ℤ × ℤ × ℤ))
      (quads : List (ℤ × ℤ × ℤ × ℤ × ℤ × ℤ)),
      totalSize planes ≤ n → NodupKeys planes →
      ((entriesOf planes).map planeEntryCells ++
        quads.map boxCells).Pairwise Disjoint →
      ((capture_quads_loop planes quads).map boxCells).Pairwise Disjoint ∧
      unionList ((capture_quads_loop planes quads).map boxCells) =
        unionList ((entriesOf planes).map planeEntryCells) ∪
          unionList (quads.map boxCells) := by
  intro n
  induction n with
  | zero =>
      intro planes quads hsz hndp hpw
      rcases hfs : firstSeg planes with _ | kp
      · exact capture_quads_loop_base hfs hpw
      · exfalso
        have hmem := firstSeg_mem hfs
        have h0 : (entriesOf planes).length = 0 := by
          have := totalSize_entries planes
          omega
        rw [List.length_eq_zero] at h0
        rw [h0] at hmem
        exact absurd hmem (List.not_mem_nil _)
  | succ n ih =>
      intro planes quads hsz hndp hpw
      rcases hfs : firstSeg planes with _ | ⟨⟨z, u⟩, q⟩
      · exact capture_quads_loop_base hfs hpw
      · obtain rfl : u = () := rfl
        have hmem : (((z, ()) : ℤ × Unit), q) ∈ entriesOf planes := firstSeg_mem hfs
        have hm : segMatches planes (z, ()) q = true := segMatches_of_mem hndp hmem
        obtain ⟨hnd1, hks, hloz, hhiz, hperm⟩ := captureSpan_spec planes () q z hndp hm
        rcases hcs : captureSpan planes () q z with ⟨st1, lo, hi⟩
        rw [hcs] at hnd1 hks hloz hhiz hperm
        dsimp only at hnd1 hks hloz hhiz hperm
        have hlt : totalSize st1 < totalSize planes := by
          rw [totalSize_entries, totalSize_entries, hperm.length_eq, List.length_append]
          have hz : (z : ℤ) ∈ IccList lo hi := mem_IccList.mpr ⟨hloz, hhiz⟩
          have hpos := List.length_pos_of_mem
            (List.mem_map_of_mem (fun j => (((j, ()) : ℤ × Unit), q)) hz)
          omega
        have heq : capture_quads_loop planes quads =
            capture_quads_loop st1
              (quads ++ [(q.1, q.2.1, lo, q.2.2.1, q.2.2.2, hi)]) := by
          rw [capture_quads_loop.eq_def, hfs]
          dsimp only
          rw [hcs]
          dsimp only
          rw [dif_pos hlt]
        rw [heq]
        have hABperm : ((entriesOf planes).map planeEntryCells).Perm
            ((entriesOf st1).map planeEntryCells ++
              ((IccList lo hi).map fun j => planeCellsF (j, ()) q)) := by
          have hmap := hperm.map planeEntryCells
          rw [List.map_append, List.map_map] at hmap
          exact hmap
        have hLperm : ((entriesOf planes).map planeEntryCells ++
            quads.map boxCells).Perm
            ((entriesOf st1).map planeEntryCells ++
              (((IccList lo hi).map fun j => planeCellsF (j, ()) q) ++
                quads.map boxCells)) := by
          refine (hABperm.append_right _).trans ?_
          rw [List.append_assoc]
        have hpw' := (hLperm.pairwise_iff fun h => Disjoint.symm h).mp hpw
        obtain ⟨hpwNew, -⟩ := pairwise_merge hpw'
        have hnewc : boxCells (q.1, q.2.1, lo, q.2.2.1, q.2.2.2, hi) =
            unionList ((IccList lo hi).map fun j => planeCellsF (j, ()) q) :=
          box_span_cells q lo hi
        have hpwRec : ((entriesOf st1).map planeEntryCells ++
            (quads ++ [(q.1, q.2.1, lo, q.2.2.1, q.2.2.2, hi)]).map
              boxCells).Pairwise Disjoint := by
          rw [List.map_append, List.map_cons, List.map_nil, hnewc,
            ← List.append_assoc]
          exact hpwNew
        obtain ⟨c1, c2⟩ := ih st1 (quads ++ [(q.1, q.2.1, lo, q.2.2.1, q.2.2.2, hi)])
          (by omega) hnd1 hpwRec
        refine ⟨c1, ?_⟩
        rw [c2]
        have h1 : unionList ((quads ++
            [(q.1, q.2.1, lo, q.2.2.1, q.2.2.2, hi)]).map boxCells) =
            unionList (quads.map boxCells) ∪
              unionList ((IccList lo hi).map fun j => planeCellsF (j, ()) q) := by
          rw [List.map_append, unionList_append, List.map_cons, List.map_nil,
            unionList_cons, unionList_nil, Finset.union_empty, hnewc]
        have h2 : unionList ((entriesOf planes).map planeEntryCells) =
            unionList ((entriesOf st1).map planeEntryCells) ∪
              unionList ((IccList lo hi).map fun j => planeCellsF (j, ()) q) := by
          rw [unionList_perm hABperm, unionList_append]
        rw [h1, h2]
        ext a
        simp only [Finset.mem_union]
        tauto

/-! ### The initial row store partitions the Crown cells -/

/-- The `(y, z)` line keys enumerated by `capture_rows`. -/
def lineKeys (g : Grid) : List (ℤ × ℤ) :=
  (List.range g.shape.2.1).flatMap fun y : ℕ =>
    (List.range g.shape.2.2).map fun z : ℕ => ((y : ℤ), (z : ℤ))

theorem mem_lineKeys {g : Grid} {k : ℤ × ℤ} :
    k ∈ lineKeys g ↔ 0 ≤ k.1 ∧ k.1 < (g.shape.2.1 : ℤ) ∧
      0 ≤ k.2 ∧ k.2 < (g.shape.2.2 : ℤ) := by
  obtain ⟨a, b⟩ := k
  simp only [lineKeys, List.mem_flatMap, List.mem_map, List.mem_range]
  constructor
  · rintro ⟨y, hy, z, hz, heq⟩
    obtain ⟨h1, h2⟩ : (y : ℤ) = a ∧ (z : ℤ) = b := by
      simpa [Prod.ext_iff] using heq
    refine ⟨?_, ?_, ?_, ?_⟩ <;> omega
  · rintro ⟨h1, h2, h3, h4⟩
    refine ⟨a.toNat, by omega, b.toNat, by omega, ?_⟩
    rw [Prod.mk.injEq]
    constructor <;> omega

theorem lineKeys_nodup (g : Grid) : (lineKeys g).Nodup := by
  unfold lineKeys
  rw [List.nodup_flatMap]
  constructor
  · intro y hy
    refine List.Nodup.map ?_ (List.nodup_range _)
    intro z1 z2 hz
    have h2 := congrArg Prod.snd hz
    dsimp only at h2
    exact_mod_cast h2
  · refine List.Pairwise.imp ?_ (List.nodup_range g.shape.2.1)
    intro y y' hyy a ha ha'
    rw [List.mem_map] at ha ha'
    obtain ⟨z, hz, rfl⟩ := ha
    obtain ⟨z', hz', heq⟩ := ha'
    have hfst := congrArg Prod.fst heq
    dsimp only at hfst
    exact hyy (by exact_mod_cast hfst.symm)

theorem keysOf_capture_rows (g : Grid) : keysOf (capture_rows g) = lineKeys g := by
  unfold keysOf capture_rows lineKeys
  simp only [List.map_flatMap, List.map_map]
  rfl

theorem nodupKeys_capture_rows (g : Grid) : NodupKeys (capture_rows g) := by
  unfold NodupKeys
  rw [keysOf_capture_rows]
  exact lineKeys_nodup g

theorem entriesOf_capture_rows (g : Grid) :
    entriesOf (capture_rows g) =
      (lineKeys g).flatMap fun k => (row_runs g k.1 k.2).map fun r => (k, r) := by
  unfold entriesOf capture_rows lineKeys
  simp only [List.flatMap_assoc, List.flatMap_map]

theorem capture_rows_cells_pairwise (g : Grid) :
    ((entriesOf (capture_rows g)).map rowEntryCells).Pairwise Disjoint := by
  rw [entriesOf_capture_rows, List.map_flatMap]
  simp only [List.map_map]
  rw [List.pairwise_flatMap]
  constructor
  · intro k hk
    rw [List.pairwise_map]
    refine (row_runs_ord g k.1 k.2).imp ?_
    intro r r' hrr
    have hgoal : Disjoint (rowCellsF k r) (rowCellsF k r') := by
      rw [Finset.disjoint_left]
      intro x hx hx'
      rw [mem_rowCellsF] at hx hx'
      omega
    exact hgoal
  · refine List.Pairwise.imp ?_ (lineKeys_nodup g)
    intro k k' hkk x hx y hy
    rw [List.mem_map] at hx hy
    obtain ⟨r, hr, rfl⟩ := hx
    obtain ⟨r', hr', rfl⟩ := hy
    have hgoal : Disjoint (rowCellsF k r) (rowCellsF k' r') := by
      rw [Finset.disjoint_left]
      intro a ha ha'
      rw [mem_rowCellsF] at ha ha'
      exact hkk (Prod.ext (ha.2.1 ▸ ha'.2.1) (ha.2.2 ▸ ha'.2.2))
    exact hgoal

theorem capture_rows_cells_union (g : Grid) :
    unionList ((entriesOf (capture_rows g)).map rowEntryCells) =
      cellsWith g CellType.crown.value := by
  ext x
  rw [mem_unionList, mem_cellsWith]
  constructor
  · rintro ⟨t, ht, hx⟩
    rw [entriesOf_capture_rows, List.map_flatMap] at ht
    simp only [List.map_map] at ht
    rw [List.mem_flatMap] at ht
    obtain ⟨k, hk, ht⟩ := ht
    rw [List.mem_map] at ht
    obtain ⟨r, hr, rfl⟩ := ht
    have hx' : x ∈ rowCellsF k r := hx
    rw [mem_rowCellsF] at hx'
    obtain ⟨⟨h1, h2⟩, hy, hz⟩ := hx'
    have hcov := (row_runs_cov g k.1 k.2 x.1).mp ⟨r, hr, h1, h2⟩
    obtain ⟨x1, x2, x3⟩ := x
    dsimp only at hy hz hcov
    rw [hy, hz]
    exact hcov
  · intro hx
    obtain ⟨x1, x2, x3⟩ := x
    obtain ⟨hin, hdat⟩ := hx
    have hk : ((x2, x3) : ℤ × ℤ) ∈ lineKeys g := by
      rw [mem_lineKeys]
      obtain ⟨-, -, h3, h4, h5, h6⟩ := hin
      exact ⟨h3, h4, h5, h6⟩
    obtain ⟨r, hr, h1, h2⟩ := (row_runs_cov g x2 x3 x1).mpr ⟨hin, hdat⟩
    refine ⟨rowCellsF (x2, x3) r, ?_, ?_⟩
    · rw [entriesOf_capture_rows, List.map_flatMap]
      simp only [List.map_map]
      rw [List.mem_flatMap]
      refine ⟨(x2, x3), hk, ?_⟩
      rw [List.mem_map]
      exact ⟨r, hr, rfl⟩
    · rw [mem_rowCellsF]
      exact ⟨⟨h1, h2⟩, rfl, rfl⟩

/-- `capture_planes` produces pairwise-disjoint plane segments covering
exactly the Crown cells. -/
theorem capture_planes_full (g : Grid) :
    NodupKeys (capture_planes g) ∧
    ((entriesOf (capture_planes g)).map planeEntryCells).Pairwise Disjoint ∧
    unionList ((entriesOf (capture_planes g)).map planeEntryCells) =
      cellsWith g CellType.crown.value := by
  obtain ⟨c1, c2, c3⟩ := capture_planes_loop_spec (totalSize (capture_rows g))
    (capture_rows g) [] (le_refl _) (nodupKeys_capture_rows g)
    (by unfold NodupKeys keysOf; exact List.nodup_nil)
    (by rw [entriesOf_nil, List.map_nil, List.append_nil]
        exact capture_rows_cells_pairwise g)
  have hcp : capture_planes g = capture_planes_loop (capture_rows g) [] := rfl
  refine ⟨by rw [hcp]; exact c1, by rw [hcp]; exact c2, ?_⟩
  rw [hcp, c3, entriesOf_nil, List.map_nil, unionList_nil, Finset.union_empty,
    capture_rows_cells_union]

/-- C2: the boxes returned by `capture_quads` cover exactly the set of
in-bounds Crown cells of the grid, and no two boxes share a cell: the
greedy mesher's output partitions the Crown set. -/
theorem capture_quads_partition_crown (g : Grid) :
    unionList ((capture_quads g).map boxCells) = cellsWith g CellType.crown.value ∧
    ((capture_quads g).map boxCells).Pairwise Disjoint := by
  obtain ⟨p1, p2, p3⟩ := capture_planes_full g
  obtain ⟨c1, c2⟩ := capture_quads_loop_spec (totalSize (capture_planes g))
    (capture_planes g) [] (le_refl _) p1
    (by rw [List.map_nil, List.append_nil]; exact p2)
  have hq : capture_quads g = capture_quads_loop (capture_planes g) [] := rfl
  constructor
  · rw [hq, c2, List.map_nil, unionList_nil, Finset.union_empty, p3]
  · rw [hq]
    exact c1

end SpaceTree

